import Mathlib

/-!
Verification of the hybrid code-retrieval and agent engine.

This file gives a shallow embedding, in Lean 4, of the core data model and
operations of the Go repository (RAG chunker and vector store, query
analyzer, result merger, task manager, executor and runner), and proves or
refutes the testable properties stated in its specification.

Conventions of the embedding:
* Go strings are Lean `String`s; Go `len` on strings (a byte count) is
  `goLen`, which sums UTF-8 sizes.
* Go `int` values that are always non-negative in the program are `Nat`;
  budgets and totals that the spec quantifies over arbitrarily are `Int`.
* `float32` scores and relevances are embedded as `Rat`: the properties at
  issue are order/arithmetic facts that do not hinge on rounding.
* Filesystem state is an association list from absolute path to content;
  external collaborators (shell, LLM) are oracle parameters.
-/

/-! ## String helpers (Go `strings` package equivalents) -/

/-- Whitespace class of Go regexp `\s`: tab, newline, form feed,
carriage return, space. -/
def goWsRegex (c : Char) : Bool :=
  c = ' ' || c = '\t' || c = '\n' || c = '\x0c' || c = '\r'

/-- ASCII fragment of `unicode.IsSpace`, used by `strings.TrimSpace`:
the regexp class plus vertical tab. -/
def goWsTrim (c : Char) : Bool :=
  goWsRegex c || c = '\x0b'

/-- Go `strings.TrimSpace` (ASCII whitespace). -/
def trimSpace (s : String) : String :=
  String.mk (((s.data.dropWhile goWsTrim).reverse.dropWhile goWsTrim).reverse)

/-- Contiguous-sublist test on character lists. -/
def isInfixCL (sub : List Char) : List Char → Bool
  | [] => sub.isPrefixOf ([] : List Char)
  | c :: rest => sub.isPrefixOf (c :: rest) || isInfixCL sub rest

/-- Go `strings.Contains s sub` (UTF-8 is self-synchronizing, so byte-level
containment coincides with character-level containment). -/
def containsStr (s sub : String) : Bool :=
  isInfixCL sub.data s.data

/-- Go `strings.HasPrefix s pre`. -/
def hasPre (s pre : String) : Bool :=
  pre.data.isPrefixOf s.data

/-- Byte length of a Go string (`len(s)` in Go counts UTF-8 bytes). -/
def goLen (s : String) : Nat :=
  s.data.foldl (fun n c => n + c.utf8Size) 0

/-- Tail-recursive worker for `splitOnChar`: `cur` is the current piece
reversed, `acc` the finished pieces reversed. -/
def splitOnCharGo (sep : Char) : List Char → List Char → List (List Char) → List (List Char)
  | [], cur, acc => (cur.reverse :: acc).reverse
  | c :: rest, cur, acc =>
    if c = sep then splitOnCharGo sep rest [] (cur.reverse :: acc)
    else splitOnCharGo sep rest (c :: cur) acc

/-- Split a character list on a separator character; `splitOnChar sep []`
is `[[]]`, matching Go `strings.Split` which never returns an empty list. -/
def splitOnChar (sep : Char) (l : List Char) : List (List Char) :=
  splitOnCharGo sep l [] []

/-- Go `strings.Split s "\n"`. -/
def splitLines (s : String) : List String :=
  (splitOnChar '\n' s.data).map String.mk

/-- Go `strings.Join lines "\n"`. -/
def joinLines : List String → String
  | [] => ""
  | [s] => s
  | s :: rest => s ++ "\n" ++ joinLines rest

/-- Core of Go `strings.Replace s old new 1`: replace the first (leftmost)
occurrence of `old` by `new`; an empty `old` matches at the start. -/
def replaceFirstCL (old new : List Char) : List Char → List Char
  | [] => if old.isPrefixOf ([] : List Char) then new else []
  | c :: rest =>
    if old.isPrefixOf (c :: rest) then new ++ (c :: rest).drop old.length
    else c :: replaceFirstCL old new rest

/-- Go `strings.Replace s old new 1`. -/
def replaceFirst (s old new : String) : String :=
  String.mk (replaceFirstCL old.data new.data s.data)

/-- Go `strings.ToLower` (ASCII fragment). -/
def lowerStr (s : String) : String :=
  String.mk (s.data.map Char.toLower)

/-! ## SHA-256 (Go `crypto/sha256`, FIPS 180-4), over `Nat` mod 2^32 -/

/-- 2^32, the word modulus of SHA-256. -/
def w32 : Nat := 4294967296

/-- Right rotation of a 32-bit word represented as a `Nat` below `w32`. -/
def rotr32 (x n : Nat) : Nat :=
  (x / 2 ^ n + x % 2 ^ n * 2 ^ (32 - n)) % w32

/-- SHA-256 `Ch(x,y,z)`; complement is XOR with the all-ones word. -/
def shaCh (x y z : Nat) : Nat :=
  (x &&& y) ^^^ ((x ^^^ (w32 - 1)) &&& z)

/-- SHA-256 `Maj(x,y,z)`. -/
def shaMaj (x y z : Nat) : Nat :=
  (x &&& y) ^^^ (x &&& z) ^^^ (y &&& z)

/-- SHA-256 `Σ₀`. -/
def bsig0 (x : Nat) : Nat := rotr32 x 2 ^^^ rotr32 x 13 ^^^ rotr32 x 22

/-- SHA-256 `Σ₁`. -/
def bsig1 (x : Nat) : Nat := rotr32 x 6 ^^^ rotr32 x 11 ^^^ rotr32 x 25

/-- SHA-256 `σ₀`. -/
def ssig0 (x : Nat) : Nat := rotr32 x 7 ^^^ rotr32 x 18 ^^^ (x / 8)

/-- SHA-256 `σ₁`. -/
def ssig1 (x : Nat) : Nat := rotr32 x 17 ^^^ rotr32 x 19 ^^^ (x / 1024)

/-- The 64 SHA-256 round constants. -/
def shaK : List Nat :=
  [1116352408, 1899447441, 3049323471, 3921009573, 961987163,
   1508970993, 2453635748, 2870763221, 3624381080, 310598401,
   607225278, 1426881987, 1925078388, 2162078206, 2614888103,
   3248222580, 3835390401, 4022224774, 264347078, 604807628,
   770255983, 1249150122, 1555081692, 1996064986, 2554220882,
   2821834349, 2952996808, 3210313671, 3336571891, 3584528711,
   113926993, 338241895, 666307205, 773529912, 1294757372,
   1396182291, 1695183700, 1986661051, 2177026350, 2456956037,
   2730485921, 2820302411, 3259730800, 3345764771, 3516065817,
   3600352804, 4094571909, 275423344, 430227734, 506948616,
   659060556, 883997877, 958139571, 1322822218, 1537002063,
   1747873779, 1955562222, 2024104815, 2227730452, 2361852424,
   2428436474, 2756734187, 3204031479, 3329325298]

/-- The eight SHA-256 initial hash values. -/
def shaIV : List Nat :=
  [1779033703, 3144134277, 1013904242, 2773480762,
   1359893119, 2600822924, 528734635, 1541459225]

/-- UTF-8 bytes of a Go string (`[]byte(s)`). -/
def strBytes (s : String) : List Nat :=
  (s.data.flatMap String.utf8EncodeChar).map UInt8.toNat

/-- Big-endian 8-byte encoding of a natural number (the SHA-256 length field). -/
def be64 (n : Nat) : List Nat :=
  [n / 2 ^ 56 % 256, n / 2 ^ 48 % 256, n / 2 ^ 40 % 256, n / 2 ^ 32 % 256,
   n / 2 ^ 24 % 256, n / 2 ^ 16 % 256, n / 2 ^ 8 % 256, n % 256]

/-- SHA-256 padding: append `0x80`, zero bytes to 56 mod 64, and the
big-endian 64-bit bit length. -/
def padBytes (msg : List Nat) : List Nat :=
  let z := (120 - (msg.length + 1) % 64) % 64
  msg ++ [0x80] ++ List.replicate z 0 ++ be64 (msg.length * 8)

/-- Fuel-based worker for `toBlocks`; each step consumes at least one
byte, so fuel equal to the byte count always suffices. -/
def toBlocksGo : Nat → List Nat → List (List Nat)
  | 0, _ => []
  | _, [] => []
  | fuel + 1, b :: bs => (b :: bs).take 64 :: toBlocksGo fuel ((b :: bs).drop 64)

/-- Split a byte list into 64-byte blocks. -/
def toBlocks (bs : List Nat) : List (List Nat) :=
  toBlocksGo bs.length bs

/-- Combine bytes into big-endian 32-bit words. -/
def toWords : List Nat → List Nat
  | b0 :: b1 :: b2 :: b3 :: rest =>
    (b0 * 2 ^ 24 + b1 * 2 ^ 16 + b2 * 2 ^ 8 + b3) :: toWords rest
  | _ => []

/-- Message-schedule extension: append `t` further words to `w`. -/
def extendLoop (w : List Nat) : Nat → List Nat
  | 0 => w
  | t + 1 =>
    let n := w.length
    let next := (ssig1 (w.getD (n - 2) 0) + w.getD (n - 7) 0 +
      ssig0 (w.getD (n - 15) 0) + w.getD (n - 16) 0) % w32
    extendLoop (w ++ [next]) t

/-- One SHA-256 compression round on the state `[a,b,c,d,e,f,g,h]`;
`wk` is the pair (schedule word, round constant). -/
def shaRound (st : List Nat) (wk : Nat × Nat) : List Nat :=
  match st with
  | [a, b, c, d, e, f, g, h] =>
    let t1 := (h + bsig1 e + shaCh e f g + wk.2 + wk.1) % w32
    let t2 := (bsig0 a + shaMaj a b c) % w32
    [(t1 + t2) % w32, a, b, c, (d + t1) % w32, e, f, g]
  | _ => st

/-- Process one 64-byte block into the running hash state. -/
def processBlock (h : List Nat) (block : List Nat) : List Nat :=
  let w := extendLoop (toWords block) 48
  let st := (w.zip shaK).foldl shaRound h
  (h.zip st).map (fun p => (p.1 + p.2) % w32)

/-- The eight 32-bit words of the SHA-256 digest of a byte sequence. -/
def sha256Words (msg : List Nat) : List Nat :=
  (toBlocks (padBytes msg)).foldl processBlock shaIV

/-- Lowercase hexadecimal digit. -/
def hexDigit (n : Nat) : Char :=
  if n < 10 then Char.ofNat (48 + n) else Char.ofNat (87 + n)

/-- Eight lowercase hex digits of one 32-bit word. -/
def word8Hex (x : Nat) : List Char :=
  [hexDigit (x / 2 ^ 28 % 16), hexDigit (x / 2 ^ 24 % 16),
   hexDigit (x / 2 ^ 20 % 16), hexDigit (x / 2 ^ 16 % 16),
   hexDigit (x / 2 ^ 12 % 16), hexDigit (x / 2 ^ 8 % 16),
   hexDigit (x / 2 ^ 4 % 16), hexDigit (x % 16)]

/-- Lowercase hex SHA-256 digest of a byte sequence. -/
def sha256hex (msg : List Nat) : String :=
  String.mk ((sha256Words msg).flatMap word8Hex)

/-! ## RAG data model (`internal/rag/types.go`) -/

/-- `computeHash` of `types.go`: hex-encoded SHA-256 of the content. -/
def computeHash (content : String) : String :=
  sha256hex (strBytes content)

/-- `estimateTokens` of `types.go`: byte length divided by 4. -/
def estimateTokens (text : String) : Nat :=
  goLen text / 4

/-- `Chunk` of `types.go`. -/
structure Chunk where
  id : String
  filePath : String
  startLine : Nat
  endLine : Nat
  chunkType : String
  symbolName : String
  language : String
  content : String
  tokenCount : Nat
  hash : String
deriving DecidableEq

/-- `NewChunk` of `types.go`: the id is the first 16 hex characters of the
SHA-256 of the content. -/
def NewChunk (filePath content chunkType symbolName language : String)
    (startLine endLine : Nat) : Chunk :=
  { id := (computeHash content).take 16
    filePath := filePath
    startLine := startLine
    endLine := endLine
    chunkType := chunkType
    symbolName := symbolName
    language := language
    content := content
    tokenCount := estimateTokens content
    hash := computeHash content }

/-! ## Chunker oversize split (`internal/rag/chunker.go`) -/

/-- Maximum chunk size in bytes before splitting (`maxChunkSize`). -/
def maxChunkSize : Nat := 4000

/-- Overlap between consecutive split windows, in lines (`overlapLines`). -/
def overlapLines : Nat := 10

/-- Lines per split window: `maxChunkSize / 40`, capped at 100. -/
def linesPerChunk : Nat :=
  if maxChunkSize / 40 > 100 then 100 else maxChunkSize / 40

/-- `endIdx` of the window loop: the window starting at line `i` ends at
`i + linesPerChunk`, clamped to the line count. -/
def windowEnd (lines : List String) (i : Nat) : Nat :=
  if i + linesPerChunk > lines.length then lines.length else i + linesPerChunk

/-- `chunkContent` of the window starting at line `i`. -/
def windowContent (lines : List String) (i : Nat) : String :=
  joinLines ((lines.drop i).take (windowEnd lines i - i))

/-- The `partSymbol` naming rule: a part suffix except for a first part
whose window reaches the last line. -/
def partSymbol (name : String) (partNum : Nat) (lastReached : Bool) : String :=
  if partNum > 1 || !lastReached then name ++ "_part" ++ toString partNum else name

/-- The window loop of `splitLargeChunk`: emit a chunk per 100-line window,
advancing 90 lines, skipping windows whose trimmed content is under
20 bytes, and stopping after a window that reaches the last line.  Each
step advances `i`, so fuel `lines.length + 1` always suffices. -/
def splitLoop (fp ct name lang : String) (start : Nat) (lines : List String) :
    Nat → Nat → Nat → List Chunk
  | 0, _, _ => []
  | fuel + 1, i, partNum =>
    if i < lines.length then
      if goLen (trimSpace (windowContent lines i)) < 20 then
        splitLoop fp ct name lang start lines fuel (i + (linesPerChunk - overlapLines)) partNum
      else if lines.length ≤ windowEnd lines i then
        [NewChunk fp (windowContent lines i) ct (partSymbol name partNum true) lang
          (start + i) (start + windowEnd lines i - 1)]
      else
        NewChunk fp (windowContent lines i) ct (partSymbol name partNum false) lang
            (start + i) (start + windowEnd lines i - 1) ::
          splitLoop fp ct name lang start lines fuel (i + (linesPerChunk - overlapLines)) (partNum + 1)
    else []

/-- `splitLargeChunk` of `chunker.go`: a chunk of at most 4,000 bytes is
returned whole; a larger one is split by `splitLoop`. -/
def splitLargeChunk (filePath content chunkType symbolName language : String)
    (start endL : Nat) : List Chunk :=
  if goLen content ≤ maxChunkSize then
    [NewChunk filePath content chunkType symbolName language start endL]
  else
    splitLoop filePath chunkType symbolName language start (splitLines content)
      ((splitLines content).length + 1) 0 1

/-! ## Query analyzer (`internal/retrieval/query_analyzer.go`) -/

/-- `QueryType` of `query_analyzer.go`. -/
inductive QueryType where
  | structural
  | semantic
  | hybrid
deriving DecidableEq

/-- Word lists of `NewQueryAnalyzer`: conceptual/semantic indicators. -/
def conceptWords : List String :=
  ["how", "where", "why", "find", "search", "explain", "show me"]

/-- Word lists of `NewQueryAnalyzer`: behavior indicators. -/
def behaviorWords : List String :=
  ["handle", "process", "validate", "check", "manage", "create", "update", "delete"]

/-- Word lists of `NewQueryAnalyzer`: call-graph indicators. -/
def callGraphWords : List String :=
  ["calls", "called by", "uses", "used by", "depends on", "imports"]

/-- `containsAny` of `query_analyzer.go`. -/
def containsAny (text : String) (words : List String) : Bool :=
  words.any (fun w => containsStr text w)

/-- ASCII uppercase letter (the regexp class `[A-Z]`). -/
def isUpperAZ (c : Char) : Bool := 'A' ≤ c && c ≤ 'Z'

/-- The regexp class `[a-zA-Z0-9]`. -/
def isAlnumAZ (c : Char) : Bool :=
  ('a' ≤ c && c ≤ 'z') || ('A' ≤ c && c ≤ 'Z') || ('0' ≤ c && c ≤ '9')

/-- Fuel-based worker computing all successive leftmost-longest matches of
the pattern `[A-Z][a-zA-Z0-9]*` (the behavior of `FindAllString` for this
pattern). -/
def findSymbolTokensGo : Nat → List Char → List String
  | 0, _ => []
  | _, [] => []
  | fuel + 1, c :: rest =>
    if isUpperAZ c then
      String.mk (c :: rest.takeWhile isAlnumAZ) ::
        findSymbolTokensGo fuel (rest.dropWhile isAlnumAZ)
    else
      findSymbolTokensGo fuel rest

/-- All successive leftmost-longest matches of `[A-Z][a-zA-Z0-9]*`; each
step consumes at least one character, so fuel equal to the length
suffices. -/
def findSymbolTokens (l : List Char) : List String :=
  findSymbolTokensGo l.length l

/-- Capitalized common English words filtered out by `hasSymbols`. -/
def commonWords : List String :=
  ["I", "A", "The", "This", "That", "What", "How", "Where", "Why"]

/-- `hasSymbols` of `query_analyzer.go`: some regexp match that is not a
common word and has byte length above 1. -/
def hasSymbols (query : String) : Bool :=
  (findSymbolTokens query.data).any (fun m => !commonWords.contains m && goLen m > 1)

/-- `Classify` of `query_analyzer.go`: the query is lowercased first, then
the five features are computed and the decision rule applied. -/
def Classify (query : String) : QueryType :=
  let q := lowerStr query
  let hasSymbol := hasSymbols q
  let hasFilePath := containsStr q "/" || containsStr q ".go" || containsStr q ".py"
  let hasCallGraph := containsAny q callGraphWords
  let hasConcept := containsAny q conceptWords
  let hasBehavior := containsAny q behaviorWords
  if (hasSymbol || hasFilePath || hasCallGraph) && !hasConcept && !hasBehavior then
    QueryType.structural
  else if (hasConcept || hasBehavior) && !hasSymbol && !hasFilePath then
    QueryType.semantic
  else
    QueryType.hybrid

/-! ## Result merger (`internal/retrieval/merger.go`), scores as `Rat` -/

/-- `SearchResult` of `types.go`. -/
structure SearchResult where
  chunk : Chunk
  score : Rat
  source : String
deriving DecidableEq

/-- `LineRange` of `types.go`. -/
structure LineRange where
  start : Nat
  endL : Nat
deriving DecidableEq

/-- `FileResult` of `types.go`. -/
structure FileResult where
  path : String
  content : String := ""
  relevance : Rat
  source : String
  highlights : List LineRange := []
  chunks : List Chunk := []
deriving DecidableEq

/-- The `Sources` counters of `HybridResult`. -/
structure MergeSources where
  indexer : Nat
  rag : Nat
deriving DecidableEq

/-- `HybridResult` of `types.go`. -/
structure HybridResult where
  files : List FileResult
  totalTokens : Int := 0
  queryType : String := ""
  sources : MergeSources := ⟨0, 0⟩
deriving DecidableEq

/-- The local `max` helper of `merger.go`. -/
def maxQ (a b : Rat) : Rat := if a > b then a else b

/-- One step of the RAG pass of `Merge`.  The path-keyed Go map is an
association list whose paths are unique by construction, so updating every
entry with a matching path updates exactly the map entry. -/
def ragStep (acc : List FileResult × Nat) (res : SearchResult) : List FileResult × Nat :=
  let fp := res.chunk.filePath
  if acc.1.any (fun f => f.path = fp) then
    (acc.1.map (fun f =>
       if f.path = fp then
         { f with relevance := (maxQ f.relevance res.score) * (12 / 10 : Rat)
                  chunks := f.chunks ++ [res.chunk]
                  source := "both" }
       else f), acc.2)
  else
    (acc.1 ++ [{ path := fp, relevance := res.score, source := "rag",
                 chunks := [res.chunk],
                 highlights := [⟨res.chunk.startLine, res.chunk.endLine⟩] }],
     acc.2 + 1)

/-- One step of the indexer pass of `Merge`. -/
def idxStep (acc : List FileResult × Nat) (fp : String) : List FileResult × Nat :=
  if acc.1.any (fun f => f.path = fp) then
    (acc.1.map (fun f =>
       if f.path = fp then
         { f with relevance := f.relevance * (13 / 10 : Rat), source := "both" }
       else f), acc.2)
  else
    (acc.1 ++ [{ path := fp, relevance := (9 / 10 : Rat), source := "indexer", chunks := [] }],
     acc.2 + 1)

/-- Insert into a list sorted by relevance descending. -/
def insertByRelevance (x : FileResult) : List FileResult → List FileResult
  | [] => [x]
  | y :: ys => if y.relevance ≤ x.relevance then x :: y :: ys else y :: insertByRelevance x ys

/-- `sort.Slice` by relevance descending (`sort.Slice` is an unspecified
comparison sort; the model determinizes it as an insertion sort). -/
def sortByRelevance (files : List FileResult) : List FileResult :=
  files.foldr insertByRelevance []

/-- File token estimate of `truncateToTokenBudget`: the sum of the chunks'
token counts, or the default 500 whenever that sum is zero. -/
def codeFileTokens (f : FileResult) : Int :=
  let ft := (f.chunks.map (fun c => (c.tokenCount : Int))).sum
  if ft = 0 then 500 else ft

/-- Greedy loop of `truncateToTokenBudget`. -/
def truncateLoop (budget : Int) : Int → List FileResult → List FileResult → List FileResult × Int
  | total, acc, [] => (acc, total)
  | total, acc, f :: rest =>
    let ft := codeFileTokens f
    if total + ft > budget then (acc, total)
    else truncateLoop budget (total + ft) (acc ++ [f]) rest

/-- `truncateToTokenBudget` of `merger.go`. -/
def truncateToTokenBudget (maxTokens : Int) (files : List FileResult) :
    List FileResult × Int :=
  truncateLoop maxTokens 0 [] files

/-- `Merge` of `merger.go`: RAG pass, indexer pass, sort by relevance
descending, truncate to the token budget. -/
def Merge (maxTokens : Int) (ragResults : List SearchResult)
    (indexerFiles : List String) : HybridResult :=
  let p1 := ragResults.foldl ragStep ([], 0)
  let p2 := indexerFiles.foldl idxStep (p1.1, 0)
  let tr := truncateToTokenBudget maxTokens (sortByRelevance p2.1)
  { files := tr.1, totalTokens := tr.2, sources := ⟨p2.2, p1.2⟩ }

/-- Spec-side file token estimate (refinement reference): the spec says
"a file's tokens = sum of its chunks' token estimates, or a default of 500
when no chunks". -/
def specFileTokens (f : FileResult) : Int :=
  if f.chunks = [] then 500 else (f.chunks.map (fun c => (c.tokenCount : Int))).sum

/-! ## SQLite vector store (`sqlite_store.go`) -/

/-- One row of the `chunks` table: the chunk columns plus the embedding. -/
structure StoreRow where
  chunk : Chunk
  embedding : List Rat
deriving DecidableEq

/-- The store: configured dimension and current table contents. -/
structure VectorStore where
  dims : Nat
  rows : List StoreRow
deriving DecidableEq

namespace SQLiteVectorStore

/-- `INSERT OR REPLACE` keyed on the `id` primary key. -/
def upsertRow (rows : List StoreRow) (row : StoreRow) : List StoreRow :=
  if rows.any (fun r => r.chunk.id = row.chunk.id) then
    rows.map (fun r => if r.chunk.id = row.chunk.id then row else r)
  else rows ++ [row]

/-- The statement loop of `InsertBatch`: each vector must have the
configured dimension; the first mismatch aborts (rolls back). -/
def insertLoop (dims : Nat) : List StoreRow → List (Chunk × List Rat) → Except String (List StoreRow)
  | rows, [] => .ok rows
  | rows, (c, emb) :: rest =>
    if emb.length ≠ dims then
      .error ("embedding dims mismatch: expected " ++ toString dims ++ " got " ++ toString emb.length)
    else insertLoop dims (upsertRow rows ⟨c, emb⟩) rest

/-- `InsertBatch` of `sqlite_store.go`: length precheck, then a single
transaction that upserts each row or rolls back at the first bad vector. -/
def InsertBatch (st : VectorStore) (chunks : List Chunk)
    (embeddings : List (List Rat)) : Except String VectorStore :=
  if chunks.length ≠ embeddings.length then
    .error ("chunks and embeddings length mismatch: " ++ toString chunks.length ++
      " vs " ++ toString embeddings.length)
  else
    match insertLoop st.dims st.rows (chunks.zip embeddings) with
    | .ok rows => .ok { st with rows := rows }
    | .error e => .error e

/-- The store state after a call to `InsertBatch`: unchanged when the
transaction was rolled back. -/
def applyInsertBatch (st : VectorStore) (chunks : List Chunk)
    (embeddings : List (List Rat)) : VectorStore :=
  match InsertBatch st chunks embeddings with
  | .ok st2 => st2
  | .error _ => st

/-- `Insert` delegates to `InsertBatch` with singleton slices. -/
def Insert (st : VectorStore) (c : Chunk) (emb : List Rat) : Except String VectorStore :=
  InsertBatch st [c] [emb]

/-- The store state after a call to `Insert`. -/
def applyInsert (st : VectorStore) (c : Chunk) (emb : List Rat) : VectorStore :=
  applyInsertBatch st [c] [emb]

/-- `Count`: `SELECT COUNT(*) FROM chunks`. -/
def Count (st : VectorStore) : Nat := st.rows.length

end SQLiteVectorStore


/-! ## Go `path/filepath` on unix: `Clean`, `Join`, `IsAbs` -/

/-- The backtracking index loop of `Clean`'s `..` handling: starting from
`w`, step left while the character at `w` is not a separator and `w` is
above the `dotdot` barrier. -/
def btIdx (orig : List Char) (dotdot : Nat) : Nat → Nat
  | 0 => 0
  | w + 1 =>
    if dotdot < w + 1 ∧ ¬ orig.getD (w + 1) ' ' = '/' then btIdx orig dotdot w
    else w + 1

/-- Remove the last path element from the output buffer (`out.w--` followed
by the backtracking loop, then truncation to the final write index). -/
def backtrack (out : List Char) (dotdot : Nat) : List Char :=
  out.take (btIdx out dotdot (out.length - 1))

/-- The main loop of Go `filepath.Clean` (unix separators): `rest` is the
unread input, `out` the written output buffer, `dotdot` the backtrack
barrier.  Each step consumes at least one input character, so fuel equal
to the input length always suffices. -/
def cleanLoop (rooted : Bool) : Nat → List Char → List Char → Nat → List Char
  | _, [], out, _ => out
  | 0, _ :: _, out, _ => out
  | fuel + 1, c :: rest, out, dotdot =>
    if c = '/' then
      cleanLoop rooted fuel rest out dotdot
    else if c = '.' ∧ (rest.isEmpty ∨ rest.headD ' ' = '/') then
      cleanLoop rooted fuel rest out dotdot
    else if c = '.' ∧ rest.headD ' ' = '.' ∧
        ((rest.drop 1).isEmpty ∨ (rest.drop 1).headD ' ' = '/') then
      if dotdot < out.length then
        cleanLoop rooted fuel (rest.drop 1) (backtrack out dotdot) dotdot
      else if !rooted then
        let out2 := (if out.length > 0 then out ++ ['/'] else out) ++ ['.', '.']
        cleanLoop rooted fuel (rest.drop 1) out2 out2.length
      else
        cleanLoop rooted fuel (rest.drop 1) out dotdot
    else
      let out2 := (if (rooted ∧ out.length ≠ 1) ∨ (!rooted ∧ out.length ≠ 0)
            then out ++ ['/'] else out)
        ++ (c :: rest.takeWhile (fun ch => ¬ ch = '/'))
      cleanLoop rooted fuel (rest.dropWhile (fun ch => ¬ ch = '/')) out2 dotdot

/-- Go `filepath.Clean` for unix paths. -/
def goClean (path : String) : String :=
  if path = "" then "."
  else
    let cs := path.data
    let rooted := cs.headD ' ' = '/'
    let res :=
      if rooted then cleanLoop true cs.length cs.tail ['/'] 1
      else cleanLoop false cs.length cs [] 0
    if res = [] then "." else String.mk res

/-- Go `filepath.IsAbs` for unix paths. -/
def goIsAbs (path : String) : Bool := hasPre path "/"

/-- Go `filepath.Join` of two elements: skip leading empty elements, join
with the separator, and clean. -/
def goJoin (a b : String) : String :=
  if a = "" ∧ b = "" then ""
  else if a = "" then goClean b
  else goClean (a ++ "/" ++ b)

/-! ## Task manager (`internal/agent/openai_client.go`, task section) -/

namespace Agent

/-- Task status constants. -/
def TaskStatusPending : String := "pending"

/-- Task status constant `in_progress`. -/
def TaskStatusInProgress : String := "in_progress"

/-- Task status constant `completed`. -/
def TaskStatusCompleted : String := "completed"

/-- Task status constant `blocked`. -/
def TaskStatusBlocked : String := "blocked"

/-- `Task` of the task manager; status is a string, as in Go. -/
structure Task where
  id : Int
  description : String
  status : String
  details : String := ""
  filePath : String := ""
  line : Int := 0
deriving DecidableEq

/-- `TaskBreakdown`: note the denormalized counters cover completed,
in-progress and pending only — the struct has no blocked counter. -/
structure TaskBreakdown where
  userPrompt : String := ""
  summary : String := ""
  tasks : List Task
  totalTasks : Nat
  completed : Nat := 0
  inProgress : Nat := 0
  pending : Nat := 0
deriving DecidableEq

/-- `UpdateStats`: one recompute of the three counters from the statuses. -/
def UpdateStats (tb : TaskBreakdown) : TaskBreakdown :=
  { tb with
    completed := tb.tasks.countP (fun t => t.status == TaskStatusCompleted)
    inProgress := tb.tasks.countP (fun t => t.status == TaskStatusInProgress)
    pending := tb.tasks.countP (fun t => t.status == TaskStatusPending) }

/-- Set the status of the first task with the given id, if any. -/
def setTaskStatus : List Task → Int → String → Option (List Task)
  | [], _, _ => none
  | t :: rest, taskID, status =>
    if t.id = taskID then some ({ t with status := status } :: rest)
    else
      match setTaskStatus rest taskID status with
      | some rest2 => some (t :: rest2)
      | none => none

/-- `UpdateTaskStatus`: sets the first matching task's status and recomputes
the counters; the flag is false (error) when no task has the id, in which
case the breakdown is unchanged. -/
def UpdateTaskStatus (tb : TaskBreakdown) (taskID : Int) (status : String) :
    TaskBreakdown × Bool :=
  match setTaskStatus tb.tasks taskID status with
  | some ts => (UpdateStats { tb with tasks := ts }, true)
  | none => (tb, false)

/-- Character class of the checkbox pattern
(box-drawing marks, brackets, `x`, `-`, and regexp whitespace). -/
def checkboxClass (c : Char) : Bool :=
  c = '☐' || c = '☑' || c = '✓' || c = '✗' || c = '[' || c = ']' ||
  c = 'x' || c = '-' || goWsRegex c

/-- Submatch of the anchored pattern `[\s]*[☐☑✓✗\[\]x\s-]+\s*(.+)` on a
line with no leading whitespace, under Go leftmost-first (greedy with
backtracking) semantics.  Since regexp whitespace is inside the class, the
greedy class run is backed off by one character only when it consumes the
whole line. -/
def checkboxCapture (l : List Char) : Option (List Char) :=
  let p := (l.takeWhile checkboxClass).length
  if p = 0 then none
  else if p < l.length then some (l.drop p)
  else if 2 ≤ l.length then some (l.drop (l.length - 1))
  else none

/-- ASCII digit (`\d`). -/
def isDigitCh (c : Char) : Bool := '0' ≤ c && c ≤ '9'

/-- Submatch of `\s+(.+)` under greedy-with-backtracking semantics: the
whitespace run is maximal, backed off by one only when it reaches the end
of the line. -/
def wsCapture (rest : List Char) : Option (List Char) :=
  let w := (rest.takeWhile goWsRegex).length
  if w = 0 then none
  else if w < rest.length then some (rest.drop w)
  else if 2 ≤ w then some (rest.drop (w - 1))
  else none

/-- Submatch of the anchored pattern `[\s]*\d+\.\s+(.+)` on a line with no
leading whitespace. -/
def numberedCapture (l : List Char) : Option (List Char) :=
  let d := (l.takeWhile isDigitCh).length
  if d = 0 then none
  else
    match l.drop d with
    | '.' :: rest => wsCapture rest
    | _ => none

/-- Submatch of the anchored pattern `[\s]*[-*•]\s+(.+)` on a line with no
leading whitespace. -/
def bulletCapture : List Char → Option (List Char)
  | c :: rest => if c = '-' || c = '*' || c = '•' then wsCapture rest else none
  | [] => none

/-- Completion detection of `ParseTasksFromLLM`: a line containing the
marks gets status completed, else pending. -/
def parsedStatus (l : String) : String :=
  if containsStr l "☑" || containsStr l "✓" || containsStr l "[x]" then TaskStatusCompleted
  else TaskStatusPending

/-- The three task-line patterns of `ParseTasksFromLLM`, tried in order. -/
def parseCapture (l : String) : Option (List Char) :=
  match checkboxCapture l.data with
  | some c => some c
  | none =>
    match numberedCapture l.data with
    | some c => some c
    | none => bulletCapture l.data

/-- Per-line step of `ParseTasksFromLLM`: trim, detect completion marks,
try the three patterns in order, and trim the captured description. -/
def parseLine (line : String) : Option (String × String) :=
  if trimSpace line = "" then none
  else
    match parseCapture (trimSpace line) with
    | none => none
    | some c =>
      if trimSpace (String.mk c) = "" then none
      else some (trimSpace (String.mk c), parsedStatus (trimSpace line))

/-- Per-line accumulator step of `ParseTasksFromLLM`: the accumulator is
the task list so far and the next task id. -/
def parseStep (acc : List Task × Nat) (line : String) : List Task × Nat :=
  match parseLine line with
  | some dc => (acc.1 ++ [{ id := (acc.2 : Int), description := dc.1, status := dc.2 }], acc.2 + 1)
  | none => acc

/-- `ParseTasksFromLLM`: split into lines, build tasks with sequential ids
from 1, and fail when no line parses; otherwise recompute stats. -/
def ParseTasksFromLLM (llmResponse : String) : Option TaskBreakdown :=
  let r := (splitLines llmResponse).foldl parseStep ([], 1)
  if r.1 = [] then none
  else some (UpdateStats { tasks := r.1, totalTasks := r.1.length })

/-! ## Actions and executor (`action.go`, `executor.go`) -/

/-- `ActionType` constants (`ActionType` is a string type in Go). -/
def ActionReadFile : String := "read_file"

/-- Action type `edit_file`. -/
def ActionEditFile : String := "edit_file"

/-- Action type `create_file`. -/
def ActionCreateFile : String := "create_file"

/-- Action type `delete_file`. -/
def ActionDeleteFile : String := "delete_file"

/-- Action type `run_command`. -/
def ActionRunCommand : String := "run_command"

/-- Action type `search`. -/
def ActionSearch : String := "search"

/-- Action type `ask_user`. -/
def ActionAskUser : String := "ask_user"

/-- Action type `complete`. -/
def ActionComplete : String := "complete"

/-- Action type `fail`. -/
def ActionFail : String := "fail"

/-- `TextEdit` of `action.go`. -/
structure TextEdit where
  oldText : String
  newText : String
deriving DecidableEq

/-- `Action` of `action.go`: a tagged record whose `type` selects the case. -/
structure Action where
  type : String
  path : String := ""
  edits : List TextEdit := []
  content : String := ""
  command : String := ""
  workdir : String := ""
  query : String := ""
  reason : String := ""
  timeout : Int := 0
  summary : String := ""
  question : String := ""
deriving DecidableEq

/-- `ActionResult` of `action.go`; the wall-clock `Duration` field is not
modelled. -/
structure ActionResult where
  success : Bool
  output : String := ""
  error : String := ""
  filesChanged : List String := []
deriving DecidableEq

/-- The filesystem as an association list from absolute path to content. -/
abbrev Fs := List (String × String)

/-- `os.ReadFile`. -/
def fsRead (fs : Fs) (p : String) : Option String :=
  (fs.find? (fun kv => kv.1 = p)).map (fun kv => kv.2)

/-- `os.WriteFile` (create or overwrite). -/
def fsWrite (fs : Fs) (p content : String) : Fs :=
  if fs.any (fun kv => kv.1 = p) then
    fs.map (fun kv => if kv.1 = p then (p, content) else kv)
  else fs ++ [(p, content)]

/-- `os.Remove`. -/
def fsRemove (fs : Fs) (p : String) : Fs :=
  fs.filter (fun kv => ¬ kv.1 = p)

/-- Default blocklist installed by `NewExecutor`. -/
def defaultBlocklist : List String :=
  [".env", "id_rsa", "id_dsa", "secrets", "config.yml", "config.yaml"]

/-- `Executor` of `executor.go`.  The shell and the index search engine are
external collaborators, modelled as oracles: `shellOut cmd workdir` gives
(exit ok, combined output, error text) of `bash -c cmd`, and `searchOut`
the formatted symbol-search output. -/
structure Executor where
  projectRoot : String
  dryRun : Bool
  blocklist : List String := defaultBlocklist
  hasIndex : Bool := true
  shellOut : String → String → Bool × String × String := fun _ _ => (true, "", "")
  searchOut : String → String := fun _ => ""

/-- `Executor.abs`: absolute paths pass through, relative ones are joined
to the project root. -/
def Executor.abs (e : Executor) (path : String) : String :=
  if goIsAbs path then path else goJoin e.projectRoot path

/-- `Executor.checkPath`: the resolved path must start with the cleaned
project root and avoid the blocklist; returns the error message if any. -/
def Executor.checkPath (e : Executor) (path : String) : Option String :=
  let a := e.abs path
  if ¬ hasPre a (goClean e.projectRoot) then
    some ("path " ++ path ++ " escapes project root")
  else if e.blocklist.any (fun b => containsStr a b) then
    some ("path " ++ path ++ " is blocked")
  else none

/-- The sequential edit loop of the `edit_file` case: each `old_text` must
occur in the successively rewritten content; its first occurrence is
replaced; the first miss aborts. -/
def applyEdits (content : String) : List TextEdit → Option String
  | [] => some content
  | e :: rest =>
    if containsStr content e.oldText then
      applyEdits (replaceFirst content e.oldText e.newText) rest
    else none

/-- `Executor.Execute` of `executor.go` over the modelled filesystem;
returns the action result and the filesystem afterwards. -/
def Execute (e : Executor) (fs : Fs) (a : Action) : ActionResult × Fs :=
  if a.type = ActionReadFile then
    match fsRead fs (e.abs a.path) with
    | some content => ({ success := true, output := content }, fs)
    | none =>
      ({ success := false,
         error := "open " ++ e.abs a.path ++ ": no such file or directory" }, fs)
  else if a.type = ActionCreateFile then
    match e.checkPath a.path with
    | some err => ({ success := false, error := err }, fs)
    | none =>
      if e.dryRun then
        ({ success := true, output := "[dry-run] would create " ++ a.path }, fs)
      else
        ({ success := true, output := "created " ++ a.path, filesChanged := [a.path] },
         fsWrite fs (e.abs a.path) a.content)
  else if a.type = ActionEditFile then
    match e.checkPath a.path with
    | some err => ({ success := false, error := err }, fs)
    | none =>
      if a.edits = [] then
        ({ success := false, error := "no edits provided" }, fs)
      else
        match fsRead fs (e.abs a.path) with
        | none =>
          ({ success := false,
             error := "open " ++ e.abs a.path ++ ": no such file or directory" }, fs)
        | some content =>
          match applyEdits content a.edits with
          | none =>
            ({ success := false, error := "old_text not found in " ++ a.path }, fs)
          | some c2 =>
            if e.dryRun then
              ({ success := true, output := "[dry-run] would edit " ++ a.path }, fs)
            else
              ({ success := true, output := "edited " ++ a.path, filesChanged := [a.path] },
               fsWrite fs (e.abs a.path) c2)
  else if a.type = ActionDeleteFile then
    match e.checkPath a.path with
    | some err => ({ success := false, error := err }, fs)
    | none =>
      if e.dryRun then
        ({ success := true, output := "[dry-run] would delete " ++ a.path }, fs)
      else
        match fsRead fs (e.abs a.path) with
        | none =>
          ({ success := false,
             error := "remove " ++ e.abs a.path ++ ": no such file or directory" }, fs)
        | some _ =>
          ({ success := true, output := "deleted " ++ a.path, filesChanged := [a.path] },
           fsRemove fs (e.abs a.path))
  else if a.type = ActionRunCommand then
    let workdir := if a.workdir = "" then e.projectRoot else a.workdir
    if e.dryRun then
      ({ success := true,
         output := "[dry-run] would run \x27" ++ a.command ++ "\x27 (cwd=" ++ workdir ++ ")" }, fs)
    else
      let r := e.shellOut a.command workdir
      ({ success := r.1, output := r.2.1, error := r.2.2 }, fs)
  else if a.type = ActionSearch then
    if ¬ e.hasIndex then
      ({ success := false, error := "search unavailable: index is nil" }, fs)
    else
      ({ success := true, output := e.searchOut a.query }, fs)
  else if a.type = ActionAskUser then
    ({ success := false, output := a.question, error := "user input required" }, fs)
  else if a.type = ActionComplete then
    ({ success := true, output := a.summary }, fs)
  else if a.type = ActionFail then
    ({ success := false, error := a.reason }, fs)
  else
    ({ success := false, error := "unsupported action type: " ++ a.type }, fs)

/-! ## Runner (`runner.go`) -/

/-- The default of 25 applied by `Run` when `MaxIterations` is not
positive. -/
def effectiveMaxIterations (m : Int) : Nat :=
  if m ≤ 0 then 25 else m.toNat

/-- `TaskExecution` of `action.go`. -/
structure TaskExecution where
  task : Task
  actions : List Action := []
  results : List ActionResult := []
  completed : Bool := false
  failed : Bool := false
  failureMsg : String := ""
deriving DecidableEq

/-- Character-level worker for `takeBytes`. -/
def takeBytesCL : List Char → Nat → List Char
  | [], _ => []
  | c :: rest, n =>
    if c.utf8Size ≤ n then c :: takeBytesCL rest (n - c.utf8Size) else []

/-- Take a prefix of at most `n` bytes (Go slices the output at byte 240;
the model cuts at a character boundary). -/
def takeBytes (s : String) (n : Nat) : String :=
  String.mk (takeBytesCL s.data n)

/-- `summarizeStep` of `runner.go`: one history line per iteration. -/
def summarizeStep (a : Action) (r : ActionResult) : String :=
  let status := if r.success then "ok" else "err"
  let out0 := trimSpace r.output
  let out := if goLen out0 > 240 then takeBytes out0 240 ++ "..." else out0
  a.type ++ " " ++ a.path ++ " → " ++ status ++ " (" ++ out ++ ")"

/-- The per-task iteration loop of `executeTask`.  The oracle is the
composite of the LLM chat call and the JSON decode of its reply: given the
history lines so far it yields the next action, or the failure message of
a chat or parse error (in which case Go returns a `TaskExecution` whose
action and result lists are nil). -/
def executeTaskGo (oracle : List String → Except String Action)
    (exec : Action → ActionResult) (task : Task) :
    Nat → List Action → List ActionResult → List String → TaskExecution
  | 0, acts, ress, _ =>
    { task := task, actions := acts, results := ress, failed := true,
      failureMsg := "max iterations reached before completion" }
  | n + 1, acts, ress, hist =>
    match oracle hist with
    | .error msg => { task := task, failed := true, failureMsg := msg }
    | .ok a =>
      if a.type = ActionComplete ∨ a.type = ActionFail then
        { task := task, actions := acts ++ [a], results := ress ++ [exec a],
          completed := a.type = ActionComplete ∧ (exec a).success,
          failed := a.type = ActionFail ∨ ¬ (exec a).success,
          failureMsg := (exec a).error }
      else if ¬ (exec a).success then
        { task := task, actions := acts ++ [a], results := ress ++ [exec a], failed := true,
          failureMsg := (exec a).error }
      else
        executeTaskGo oracle exec task n (acts ++ [a]) (ress ++ [exec a])
          (hist ++ [summarizeStep a (exec a)])

/-- `executeTask` of `runner.go`. -/
def executeTask (oracle : List String → Except String Action)
    (exec : Action → ActionResult) (task : Task) (maxIterations : Nat) :
    TaskExecution :=
  executeTaskGo oracle exec task maxIterations [] [] []

/-- The status `Run` assigns to a task from its execution record
(completed, else blocked on failure, else reset to pending). -/
def runnerTaskStatus (ex : TaskExecution) : String :=
  if ex.completed then TaskStatusCompleted
  else if ex.failed then TaskStatusBlocked
  else TaskStatusPending


end Agent

/-- The spec's plan-counter invariant: the three stored counters plus the
number of blocked tasks account for every task. -/
def counterInvariant (tb : Agent.TaskBreakdown) : Prop :=
  tb.completed + tb.inProgress + tb.pending +
    tb.tasks.countP (fun t => t.status == Agent.TaskStatusBlocked) = tb.totalTasks

/-- A task status is one of the four of the data model. -/
def statusInFour (s : String) : Prop :=
  s = Agent.TaskStatusPending ∨ s = Agent.TaskStatusInProgress ∨
  s = Agent.TaskStatusCompleted ∨ s = Agent.TaskStatusBlocked

/-- An oracle/executor pair that never ends a task: every history yields a
non-terminal action whose execution succeeds. -/
def nonterminalOk (oracle : List String → Except String Agent.Action)
    (exec : Agent.Action → Agent.ActionResult) : Prop :=
  ∀ h, ∃ a, oracle h = Except.ok a ∧ a.type ≠ Agent.ActionComplete ∧
    a.type ≠ Agent.ActionFail ∧ (exec a).success = true

/-! # Theorems -/

/-! ## Sanity checks of the embedding against standard vectors -/

example : sha256hex (strBytes "abc") =
    "ba7816bf8f01cfea414140de5dae2223b00361a396177a9cb410ff61f20015ad" := by decide

example : goClean "abc/../../def" = "../def" ∧ goClean "/abc//./def/" = "/abc/def" ∧
    goClean "" = "." := by decide

/-! ## Shared helper lemmas -/

/-- A prefix is in particular an infix. -/
theorem isInfixCL_of_isPrefixOf {sub l : List Char} (h : sub.isPrefixOf l = true) :
    isInfixCL sub l = true := by
  cases l with
  | nil => simpa [isInfixCL] using h
  | cons c rest => simp [isInfixCL, h]

/-- `containsStr` holds for any extension of a contained prefix. -/
theorem containsStr_append_of_isPrefixOf {sub pre : String} (suf : String)
    (h : sub.data.isPrefixOf pre.data = true) :
    containsStr (pre ++ suf) sub = true := by
  apply isInfixCL_of_isPrefixOf
  rw [List.isPrefixOf_iff_prefix] at h ⊢
  rw [String.data_append]
  exact h.trans (List.prefix_append _ _)

/-! ## C2 — classifier truth table -/

/-- C2: evaluation of `Classify` on the spec's five truth-table queries.
The spec expects structural, semantic, hybrid, structural, semantic; the
code returns hybrid, semantic, semantic, hybrid, semantic.  `Classify`
lowercases the query before calling `hasSymbols`, whose regexp requires an
uppercase letter, so symbol detection never fires: the three rows that
depend on `has_symbol` diverge from the spec. -/
theorem classify_truth_table_eval :
    Classify "UserModel" = QueryType.hybrid ∧
    Classify "show me how login works" = QueryType.semantic ∧
    Classify "how does UserModel handle auth" = QueryType.semantic ∧
    Classify "callers of parseConfig" = QueryType.hybrid ∧
    Classify "handle expired tokens" = QueryType.semantic := by
  decide

/-! ## C1 — executor path safety -/

/-- C1 counterexample: `read_file` performs no path check.  With project
root `/proj`, the path `/etc/hosts` does not start with the cleaned root,
yet `Execute` happily reads the file and succeeds — refuting the claim
that every path-targeting action fails on an escaping path. -/
theorem execute_read_file_escapes_counterexample :
    hasPre
      (Agent.Executor.abs { projectRoot := "/proj", dryRun := false } "/etc/hosts")
      (goClean "/proj") = false ∧
    (Agent.Execute { projectRoot := "/proj", dryRun := false }
        [("/etc/hosts", "secret")]
        { type := Agent.ActionReadFile, path := "/etc/hosts" }).1.success = true ∧
    (Agent.Execute { projectRoot := "/proj", dryRun := false }
        [("/etc/hosts", "secret")]
        { type := Agent.ActionReadFile, path := "/etc/hosts" }).1.output = "secret" := by
  decide

/-- C1 (amended): for `create_file`, `edit_file` and `delete_file`, a path
whose resolved absolute form does not start with the cleaned project root
makes `Execute` fail with the permission/safety error
`path <p> escapes project root`, and the filesystem is unchanged.
(`read_file` performs no such check, as the counterexample shows.) -/
theorem execute_write_actions_path_safety (e : Agent.Executor) (fs : Agent.Fs)
    (a : Agent.Action)
    (hty : a.type = Agent.ActionCreateFile ∨ a.type = Agent.ActionEditFile ∨
      a.type = Agent.ActionDeleteFile)
    (hesc : hasPre (e.abs a.path) (goClean e.projectRoot) = false) :
    (Agent.Execute e fs a).1.success = false ∧
    (Agent.Execute e fs a).1.error = "path " ++ a.path ++ " escapes project root" ∧
    (Agent.Execute e fs a).2 = fs := by
  have hcp : e.checkPath a.path = some ("path " ++ a.path ++ " escapes project root") := by
    unfold Agent.Executor.checkPath
    simp [hesc]
  rcases hty with h | h | h <;>
    simp [Agent.Execute, h, hcp, Agent.ActionReadFile, Agent.ActionCreateFile,
      Agent.ActionEditFile, Agent.ActionDeleteFile]

/-- C1 (amended) witness: a concrete escaping `create_file` under root
`/proj` fails with the safety error and leaves the filesystem alone. -/
theorem execute_write_actions_path_safety_witness :
    (Agent.Execute { projectRoot := "/proj", dryRun := false }
        [("/proj/f.txt", "body")]
        { type := Agent.ActionCreateFile, path := "../etc/passwd", content := "x" }).1.success = false ∧
    (Agent.Execute { projectRoot := "/proj", dryRun := false }
        [("/proj/f.txt", "body")]
        { type := Agent.ActionCreateFile, path := "../etc/passwd", content := "x" }).1.error =
      "path " ++ "../etc/passwd" ++ " escapes project root" ∧
    (Agent.Execute { projectRoot := "/proj", dryRun := false }
        [("/proj/f.txt", "body")]
        { type := Agent.ActionCreateFile, path := "../etc/passwd", content := "x" }).2 =
      [("/proj/f.txt", "body")] :=
  execute_write_actions_path_safety
    { projectRoot := "/proj", dryRun := false }
    [("/proj/f.txt", "body")]
    { type := Agent.ActionCreateFile, path := "../etc/passwd", content := "x" }
    (Or.inl rfl) (by decide)

/-! ## C6 — InsertBatch dimension check and rollback -/

/-- The statement loop errors whenever some vector in the batch has the
wrong length. -/
theorem insertLoop_error_of_bad_dim (dims : Nat) :
    ∀ (pairs : List (Chunk × List Rat)) (rows : List StoreRow),
      (∃ p ∈ pairs, p.2.length ≠ dims) →
      ∃ msg, SQLiteVectorStore.insertLoop dims rows pairs = Except.error msg := by
  intro pairs
  induction pairs with
  | nil => intro rows h; simp at h
  | cons p rest ih =>
    obtain ⟨c, emb⟩ := p
    intro rows h
    by_cases hp : emb.length = dims
    · obtain ⟨q, hq, hqd⟩ := h
      rcases List.mem_cons.mp hq with rfl | hq2
      · exact absurd hp hqd
      · obtain ⟨msg, hmsg⟩ :=
          ih (SQLiteVectorStore.upsertRow rows ⟨c, emb⟩) ⟨q, hq2, hqd⟩
        refine ⟨msg, ?_⟩
        rw [SQLiteVectorStore.insertLoop, if_neg (by simpa using hp)]
        exact hmsg
    · refine ⟨"embedding dims mismatch: expected " ++ toString dims ++
        " got " ++ toString emb.length, ?_⟩
      rw [SQLiteVectorStore.insertLoop, if_pos (by simpa using hp)]

/-- C6: `InsertBatch` returns an error whenever some vector's length
differs from the store's configured dimension, and the store contents
after the failed call are unchanged (the transaction is rolled back). -/
theorem insert_batch_dim_mismatch_rolls_back (st : VectorStore)
    (chunks : List Chunk) (embeddings : List (List Rat))
    (hbad : ∃ e ∈ embeddings, e.length ≠ st.dims) :
    (∃ msg, SQLiteVectorStore.InsertBatch st chunks embeddings = Except.error msg) ∧
    SQLiteVectorStore.applyInsertBatch st chunks embeddings = st := by
  have herr : ∃ msg,
      SQLiteVectorStore.InsertBatch st chunks embeddings = Except.error msg := by
    unfold SQLiteVectorStore.InsertBatch
    by_cases hlen : chunks.length = embeddings.length
    · rw [if_neg (by simp [hlen])]
      obtain ⟨e, he, hed⟩ := hbad
      obtain ⟨i, hi, hie⟩ := List.mem_iff_getElem.mp he
      have hzip : (chunks.get ⟨i, by omega⟩, e) ∈ chunks.zip embeddings := by
        have hiz : i < (chunks.zip embeddings).length := by
          simp [List.length_zip, hlen]; omega
        have : (chunks.zip embeddings)[i] = (chunks.get ⟨i, by omega⟩, e) := by
          simp [List.getElem_zip, hie]
        exact this ▸ List.getElem_mem hiz
      obtain ⟨msg, hmsg⟩ := insertLoop_error_of_bad_dim st.dims
        (chunks.zip embeddings) st.rows ⟨_, hzip, hed⟩
      rw [hmsg]
      exact ⟨msg, rfl⟩
    · exact ⟨_, by rw [if_pos (by simp [hlen])]⟩
  obtain ⟨msg, hmsg⟩ := herr
  refine ⟨⟨msg, hmsg⟩, ?_⟩
  unfold SQLiteVectorStore.applyInsertBatch
  rw [hmsg]

/-- C6 witness: a one-chunk batch with a 3-dimensional vector against a
2-dimensional store errors and leaves the (empty) store unchanged. -/
theorem insert_batch_dim_mismatch_rolls_back_witness :
    (∃ msg, SQLiteVectorStore.InsertBatch ⟨2, []⟩
        [{ id := "c1", filePath := "a.go", startLine := 1, endLine := 1,
           chunkType := "function", symbolName := "f", language := "go",
           content := "x", tokenCount := 0, hash := "" }]
        [[1, 2, 3]] = Except.error msg) ∧
    SQLiteVectorStore.applyInsertBatch ⟨2, []⟩
        [{ id := "c1", filePath := "a.go", startLine := 1, endLine := 1,
           chunkType := "function", symbolName := "f", language := "go",
           content := "x", tokenCount := 0, hash := "" }]
        [[1, 2, 3]] = ⟨2, []⟩ :=
  insert_batch_dim_mismatch_rolls_back ⟨2, []⟩
    [{ id := "c1", filePath := "a.go", startLine := 1, endLine := 1,
       chunkType := "function", symbolName := "f", language := "go",
       content := "x", tokenCount := 0, hash := "" }]
    [[1, 2, 3]] ⟨[1, 2, 3], by decide, by decide⟩

/-! ## C7 — edit_file semantics -/

/-- Characterization of the `edit_file` case of `Execute` once the path
check passes and the file is readable. -/
theorem execute_edit_file_eq (e : Agent.Executor) (fs : Agent.Fs) (a : Agent.Action)
    (hty : a.type = Agent.ActionEditFile)
    (hcp : e.checkPath a.path = none)
    (content : String)
    (hread : Agent.fsRead fs (e.abs a.path) = some content) :
    Agent.Execute e fs a =
      (if a.edits = [] then ({ success := false, error := "no edits provided" }, fs)
       else
         match Agent.applyEdits content a.edits with
         | none => ({ success := false, error := "old_text not found in " ++ a.path }, fs)
         | some c2 =>
           if e.dryRun then
             ({ success := true, output := "[dry-run] would edit " ++ a.path }, fs)
           else
             ({ success := true, output := "edited " ++ a.path, filesChanged := [a.path] },
              Agent.fsWrite fs (e.abs a.path) c2)) := by
  simp [Agent.Execute, hty, Agent.ActionReadFile, Agent.ActionCreateFile,
    Agent.ActionEditFile, hcp, hread]

/-- C7: with a passing path check and a readable target, `edit_file` fails
on zero edits with `no edits provided`; its result mentions
`old_text not found` exactly when the sequential edit application misses;
a miss changes nothing; and on success each `old_text`'s first occurrence
has been replaced in order, the file being written only outside dry-run. -/
theorem execute_edit_file_spec (e : Agent.Executor) (fs : Agent.Fs) (a : Agent.Action)
    (hty : a.type = Agent.ActionEditFile)
    (hcp : e.checkPath a.path = none)
    (content : String)
    (hread : Agent.fsRead fs (e.abs a.path) = some content) :
    (a.edits = [] →
       (Agent.Execute e fs a).1.success = false ∧
       (Agent.Execute e fs a).1.error = "no edits provided" ∧
       (Agent.Execute e fs a).2 = fs) ∧
    (containsStr (Agent.Execute e fs a).1.error "old_text not found" = true ↔
       Agent.applyEdits content a.edits = none) ∧
    (Agent.applyEdits content a.edits = none →
       (Agent.Execute e fs a).1.success = false ∧
       (Agent.Execute e fs a).1.error = "old_text not found in " ++ a.path ∧
       (Agent.Execute e fs a).2 = fs) ∧
    (∀ c2, Agent.applyEdits content a.edits = some c2 → a.edits ≠ [] →
       (Agent.Execute e fs a).1.success = true ∧
       (Agent.Execute e fs a).2 =
         (if e.dryRun then fs else Agent.fsWrite fs (e.abs a.path) c2)) := by
  rw [execute_edit_file_eq e fs a hty hcp content hread]
  by_cases hE : a.edits = []
  · rw [if_pos hE]
    refine ⟨fun _ => ⟨rfl, rfl, rfl⟩, ?_, ?_, ?_⟩
    · simp [hE, Agent.applyEdits]
      decide
    · intro hnone
      rw [hE] at hnone
      simp [Agent.applyEdits] at hnone
    · intro c2 _ hne
      exact absurd hE hne
  · rw [if_neg hE]
    rcases happ : Agent.applyEdits content a.edits with _ | c2
    · refine ⟨fun h => absurd h hE, ?_, fun _ => ⟨rfl, rfl, rfl⟩, ?_⟩
      · simp only [iff_true]
        exact containsStr_append_of_isPrefixOf a.path (by decide)
      · intro c2 hc2
        simp at hc2
    · refine ⟨fun h => absurd h hE, ?_, ?_, ?_⟩
      · by_cases hd : e.dryRun <;> simp [hd] <;> decide
      · intro hnone
        simp at hnone
      · intro c3 hc3 _
        obtain rfl : c2 = c3 := by injection hc3
        by_cases hd : e.dryRun <;> simp [hd]

/-- C7 witness: under root `/p`, editing `f.txt` (content `hello world`)
with the single edit `world → there` succeeds; the miss behavior and the
zero-edit behavior are instantiated on the same configuration. -/
theorem execute_edit_file_spec_witness :
    (containsStr (Agent.Execute { projectRoot := "/p", dryRun := false }
        [("/p/f.txt", "hello world")]
        { type := Agent.ActionEditFile, path := "f.txt",
          edits := [⟨"world", "there"⟩] }).1.error "old_text not found" = true ↔
      Agent.applyEdits "hello world" [⟨"world", "there"⟩] = none) ∧
    (∀ c2, Agent.applyEdits "hello world" [⟨"world", "there"⟩] = some c2 →
       ([⟨"world", "there"⟩] : List Agent.TextEdit) ≠ [] →
       (Agent.Execute { projectRoot := "/p", dryRun := false }
          [("/p/f.txt", "hello world")]
          { type := Agent.ActionEditFile, path := "f.txt",
            edits := [⟨"world", "there"⟩] }).1.success = true ∧
       (Agent.Execute { projectRoot := "/p", dryRun := false }
          [("/p/f.txt", "hello world")]
          { type := Agent.ActionEditFile, path := "f.txt",
            edits := [⟨"world", "there"⟩] }).2 =
         (if ({ projectRoot := "/p", dryRun := false } : Agent.Executor).dryRun then
            [("/p/f.txt", "hello world")]
          else Agent.fsWrite [("/p/f.txt", "hello world")]
            (Agent.Executor.abs { projectRoot := "/p", dryRun := false } "f.txt") c2)) :=
  ⟨(execute_edit_file_spec { projectRoot := "/p", dryRun := false }
      [("/p/f.txt", "hello world")]
      { type := Agent.ActionEditFile, path := "f.txt", edits := [⟨"world", "there"⟩] }
      rfl (by decide) "hello world" (by decide)).2.1,
   (execute_edit_file_spec { projectRoot := "/p", dryRun := false }
      [("/p/f.txt", "hello world")]
      { type := Agent.ActionEditFile, path := "f.txt", edits := [⟨"world", "there"⟩] }
      rfl (by decide) "hello world" (by decide)).2.2.2⟩

/-! ## C10 — content-determined chunk ids and upsert-by-id -/

/-- Filtering a replace-matching map by the row's id yields the row when
present, given pathwise-distinct ids. -/
theorem filter_map_replace (row : StoreRow) :
    ∀ rows : List StoreRow,
      rows.Pairwise (fun r1 r2 => r1.chunk.id ≠ r2.chunk.id) →
      ((rows.map (fun r => if r.chunk.id = row.chunk.id then row else r)).filter
          (fun r => r.chunk.id == row.chunk.id)) =
        (if rows.any (fun r => r.chunk.id = row.chunk.id) then [row] else []) := by
  intro rows
  induction rows with
  | nil => intro _; simp
  | cons r rest ih =>
    intro hdist
    obtain ⟨hr, hrest⟩ := List.pairwise_cons.mp hdist
    by_cases hid : r.chunk.id = row.chunk.id
    · have hrestany : rest.any (fun r => r.chunk.id = row.chunk.id) = false := by
        rw [List.any_eq_false]
        intro x hx
        simp only [decide_eq_true_eq]
        rw [← hid]
        exact fun hxe => hr x hx hxe.symm
      have := ih hrest
      rw [hrestany] at this
      simp only [List.map_cons, if_pos hid, List.filter_cons, List.any_cons]
      rw [this]
      simp [hid]
    · have := ih hrest
      simp only [List.map_cons, if_neg hid, List.filter_cons, List.any_cons]
      rw [this]
      simp [hid]

/-- After an upsert the rows with the upserted id are exactly the new row,
provided ids were pairwise distinct. -/
theorem upsertRow_filter_eq (rows : List StoreRow) (row : StoreRow)
    (hdist : rows.Pairwise (fun r1 r2 => r1.chunk.id ≠ r2.chunk.id)) :
    (SQLiteVectorStore.upsertRow rows row).filter (fun r => r.chunk.id == row.chunk.id) =
      [row] := by
  unfold SQLiteVectorStore.upsertRow
  by_cases hany : rows.any (fun r => r.chunk.id = row.chunk.id)
  · rw [if_pos hany, filter_map_replace row rows hdist, if_pos hany]
  · rw [if_neg hany, List.filter_append]
    have h0 : rows.any (fun r => r.chunk.id = row.chunk.id) = false :=
      Bool.eq_false_iff.mpr hany
    have h1 : rows.filter (fun r => r.chunk.id == row.chunk.id) = [] := by
      rw [List.filter_eq_nil_iff]
      intro x hx
      simpa using List.any_eq_false.mp h0 x hx
    rw [h1]
    simp

/-- Upserting preserves pairwise-distinct ids. -/
theorem upsertRow_pairwise (rows : List StoreRow) (row : StoreRow)
    (hdist : rows.Pairwise (fun r1 r2 => r1.chunk.id ≠ r2.chunk.id)) :
    (SQLiteVectorStore.upsertRow rows row).Pairwise
      (fun r1 r2 => r1.chunk.id ≠ r2.chunk.id) := by
  unfold SQLiteVectorStore.upsertRow
  by_cases hany : rows.any (fun r => r.chunk.id = row.chunk.id)
  · rw [if_pos hany]
    refine List.Pairwise.map _ ?_ hdist
    intro a b hab
    have ha2 : (if a.chunk.id = row.chunk.id then row else a).chunk.id = a.chunk.id := by
      by_cases h : a.chunk.id = row.chunk.id <;> simp [h]
    have hb2 : (if b.chunk.id = row.chunk.id then row else b).chunk.id = b.chunk.id := by
      by_cases h : b.chunk.id = row.chunk.id <;> simp [h]
    simpa [ha2, hb2] using hab
  · rw [if_neg hany]
    rw [List.pairwise_append]
    refine ⟨hdist, List.pairwise_singleton _ _, ?_⟩
    intro a ha b hb
    rw [List.mem_singleton] at hb
    subst hb
    have h0 : rows.any (fun r => r.chunk.id = b.chunk.id) = false :=
      Bool.eq_false_iff.mpr hany
    simpa using List.any_eq_false.mp h0 a ha

/-- The upserted id is present afterwards. -/
theorem upsertRow_mem_id (rows : List StoreRow) (row : StoreRow) :
    ∃ r ∈ SQLiteVectorStore.upsertRow rows row, r.chunk.id = row.chunk.id := by
  unfold SQLiteVectorStore.upsertRow
  by_cases hany : rows.any (fun r => r.chunk.id = row.chunk.id)
  · rw [if_pos hany]
    rw [List.any_eq_true] at hany
    obtain ⟨x, hx, hxe⟩ := hany
    simp only [decide_eq_true_eq] at hxe
    exact ⟨row, List.mem_map.mpr ⟨x, hx, by rw [if_pos hxe]⟩, rfl⟩
  · rw [if_neg hany]
    exact ⟨row, List.mem_append_right _ (List.mem_singleton_self _), rfl⟩

/-- An upsert whose id is already present does not change the row count. -/
theorem upsertRow_length_of_mem (rows : List StoreRow) (row : StoreRow)
    (h : ∃ r ∈ rows, r.chunk.id = row.chunk.id) :
    (SQLiteVectorStore.upsertRow rows row).length = rows.length := by
  obtain ⟨r, hr, hre⟩ := h
  unfold SQLiteVectorStore.upsertRow
  rw [if_pos (List.any_eq_true.mpr ⟨r, hr, by simpa using hre⟩), List.length_map]

/-- An upsert grows the row count by at most one. -/
theorem upsertRow_length_le (rows : List StoreRow) (row : StoreRow) :
    (SQLiteVectorStore.upsertRow rows row).length ≤ rows.length + 1 := by
  unfold SQLiteVectorStore.upsertRow
  by_cases hany : rows.any (fun r => r.chunk.id = row.chunk.id)
  · rw [if_pos hany, List.length_map]; omega
  · rw [if_neg hany, List.length_append]; simp

/-- A dimension-correct single insert is an upsert of the one row. -/
theorem applyInsert_ok (st : VectorStore) (c : Chunk) (v : List Rat)
    (hv : v.length = st.dims) :
    SQLiteVectorStore.applyInsert st c v =
      { st with rows := SQLiteVectorStore.upsertRow st.rows ⟨c, v⟩ } := by
  have hloop : SQLiteVectorStore.insertLoop st.dims st.rows ([c].zip [v]) =
      Except.ok (SQLiteVectorStore.upsertRow st.rows ⟨c, v⟩) := by
    show SQLiteVectorStore.insertLoop st.dims st.rows [(c, v)] = _
    rw [SQLiteVectorStore.insertLoop, if_neg (by simp [hv]), SQLiteVectorStore.insertLoop]
  have h1 : SQLiteVectorStore.InsertBatch st [c] [v] =
      Except.ok { st with rows := SQLiteVectorStore.upsertRow st.rows ⟨c, v⟩ } := by
    unfold SQLiteVectorStore.InsertBatch
    rw [if_neg (by simp), hloop]
  unfold SQLiteVectorStore.applyInsert SQLiteVectorStore.applyInsertBatch
  rw [h1]

/-- C10: a chunk's id is the first 16 hex characters of the SHA-256 of its
content and is determined by the content alone; and since the store
upserts by id, inserting two chunks with equal ids leaves exactly the
later one's row under that id and grows the count by at most one. -/
theorem chunk_id_by_content_and_upsert :
    (∀ content fp1 fp2 ct1 ct2 sy1 sy2 la1 la2 s1 e1 s2 e2,
      (NewChunk fp1 content ct1 sy1 la1 s1 e1).id =
        (NewChunk fp2 content ct2 sy2 la2 s2 e2).id ∧
      (NewChunk fp1 content ct1 sy1 la1 s1 e1).id = (computeHash content).take 16) ∧
    (∀ (st : VectorStore) (c1 c2 : Chunk) (v1 v2 : List Rat),
      st.rows.Pairwise (fun r1 r2 => r1.chunk.id ≠ r2.chunk.id) →
      c1.id = c2.id → v1.length = st.dims → v2.length = st.dims →
      ((SQLiteVectorStore.applyInsert (SQLiteVectorStore.applyInsert st c1 v1) c2 v2).rows.filter
          (fun r => r.chunk.id == c2.id) = [⟨c2, v2⟩] ∧
       SQLiteVectorStore.Count
           (SQLiteVectorStore.applyInsert (SQLiteVectorStore.applyInsert st c1 v1) c2 v2) ≤
         SQLiteVectorStore.Count st + 1)) := by
  constructor
  · intro content fp1 fp2 ct1 ct2 sy1 sy2 la1 la2 s1 e1 s2 e2
    constructor <;> simp only [NewChunk]
  · intro st c1 c2 v1 v2 hdist h12 hv1 hv2
    have h1 : SQLiteVectorStore.applyInsert st c1 v1 =
        { st with rows := SQLiteVectorStore.upsertRow st.rows ⟨c1, v1⟩ } :=
      applyInsert_ok st c1 v1 hv1
    have h2 : SQLiteVectorStore.applyInsert (SQLiteVectorStore.applyInsert st c1 v1) c2 v2 =
        { st with rows := SQLiteVectorStore.upsertRow (SQLiteVectorStore.upsertRow st.rows ⟨c1, v1⟩) ⟨c2, v2⟩ } := by
      rw [h1]
      exact applyInsert_ok _ c2 v2 hv2
    rw [h2]
    constructor
    · exact upsertRow_filter_eq _ ⟨c2, v2⟩ (upsertRow_pairwise st.rows ⟨c1, v1⟩ hdist)
    · unfold SQLiteVectorStore.Count
      have hmem : ∃ r ∈ SQLiteVectorStore.upsertRow st.rows ⟨c1, v1⟩,
          r.chunk.id = c2.id := by
        obtain ⟨r, hr, hre⟩ := upsertRow_mem_id st.rows ⟨c1, v1⟩
        exact ⟨r, hr, hre.trans h12⟩
      rw [upsertRow_length_of_mem _ ⟨c2, v2⟩ hmem]
      exact upsertRow_length_le st.rows ⟨c1, v1⟩

/-- C10 witness: two chunks with the same content but different paths,
kinds, symbols, languages and line ranges get equal ids; inserting both
into an empty 2-dimensional store keeps a single row — the later one's —
and the count grows by at most one. -/
theorem chunk_id_by_content_and_upsert_witness :
    ((SQLiteVectorStore.applyInsert
        (SQLiteVectorStore.applyInsert ⟨2, []⟩
          (NewChunk "a.go" "shared content" "function" "f" "go" 1 2) [1, 2])
        (NewChunk "b.py" "shared content" "class" "C" "py" 5 9) [1, 2]).rows.filter
        (fun r => r.chunk.id == (NewChunk "b.py" "shared content" "class" "C" "py" 5 9).id) =
      [⟨NewChunk "b.py" "shared content" "class" "C" "py" 5 9, [1, 2]⟩] ∧
     SQLiteVectorStore.Count
         (SQLiteVectorStore.applyInsert
           (SQLiteVectorStore.applyInsert ⟨2, []⟩
             (NewChunk "a.go" "shared content" "function" "f" "go" 1 2) [1, 2])
           (NewChunk "b.py" "shared content" "class" "C" "py" 5 9) [1, 2]) ≤
       SQLiteVectorStore.Count (⟨2, []⟩ : VectorStore) + 1) :=
  chunk_id_by_content_and_upsert.2 ⟨2, []⟩
    (NewChunk "a.go" "shared content" "function" "f" "go" 1 2)
    (NewChunk "b.py" "shared content" "class" "C" "py" 5 9)
    [1, 2] [1, 2] (by simp)
    (chunk_id_by_content_and_upsert.1 "shared content"
      "a.go" "b.py" "function" "class" "f" "C" "go" "py" 1 2 5 9).1
    rfl rfl

/-! ## C3 — plan counter consistency -/

/-- When every status is one of the four, the four per-status counts
partition the task list. -/
theorem countP_four (l : List Agent.Task) (h : ∀ t ∈ l, statusInFour t.status) :
    l.countP (fun t => t.status == Agent.TaskStatusCompleted) +
      l.countP (fun t => t.status == Agent.TaskStatusInProgress) +
      l.countP (fun t => t.status == Agent.TaskStatusPending) +
      l.countP (fun t => t.status == Agent.TaskStatusBlocked) = l.length := by
  induction l with
  | nil => simp
  | cons t rest ih =>
    have ht := h t (List.mem_cons_self t rest)
    have hrest := ih (fun x hx => h x (List.mem_cons_of_mem _ hx))
    rcases ht with h4 | h4 | h4 | h4 <;>
      simp only [List.countP_cons, h4, List.length_cons] <;>
      simp only [show (Agent.TaskStatusPending == Agent.TaskStatusCompleted) = false from rfl,
        show (Agent.TaskStatusPending == Agent.TaskStatusInProgress) = false from rfl,
        show (Agent.TaskStatusPending == Agent.TaskStatusPending) = true from rfl,
        show (Agent.TaskStatusPending == Agent.TaskStatusBlocked) = false from rfl,
        show (Agent.TaskStatusInProgress == Agent.TaskStatusCompleted) = false from rfl,
        show (Agent.TaskStatusInProgress == Agent.TaskStatusInProgress) = true from rfl,
        show (Agent.TaskStatusInProgress == Agent.TaskStatusPending) = false from rfl,
        show (Agent.TaskStatusInProgress == Agent.TaskStatusBlocked) = false from rfl,
        show (Agent.TaskStatusCompleted == Agent.TaskStatusCompleted) = true from rfl,
        show (Agent.TaskStatusCompleted == Agent.TaskStatusInProgress) = false from rfl,
        show (Agent.TaskStatusCompleted == Agent.TaskStatusPending) = false from rfl,
        show (Agent.TaskStatusCompleted == Agent.TaskStatusBlocked) = false from rfl,
        show (Agent.TaskStatusBlocked == Agent.TaskStatusCompleted) = false from rfl,
        show (Agent.TaskStatusBlocked == Agent.TaskStatusInProgress) = false from rfl,
        show (Agent.TaskStatusBlocked == Agent.TaskStatusPending) = false from rfl,
        show (Agent.TaskStatusBlocked == Agent.TaskStatusBlocked) = true from rfl,
        show (if false = true then (1 : Nat) else 0) = 0 from rfl,
        show (if true = true then (1 : Nat) else 0) = 1 from rfl,
        show (if True then (1 : Nat) else 0) = 1 from rfl,
        show (if False then (1 : Nat) else 0) = 0 from rfl] <;>
      omega

/-- `UpdateStats` establishes the counter invariant whenever the statuses
are in range and the stored total matches the list length. -/
theorem updateStats_invariant (tb : Agent.TaskBreakdown)
    (h : ∀ t ∈ tb.tasks, statusInFour t.status)
    (hlen : tb.totalTasks = tb.tasks.length) :
    counterInvariant (Agent.UpdateStats tb) := by
  unfold counterInvariant Agent.UpdateStats
  simp only
  rw [hlen]
  exact countP_four tb.tasks h

/-- `setTaskStatus` preserves the length and any status predicate that
holds of the new status and of every prior status. -/
theorem setTaskStatus_some (taskID : Int) (st : String) :
    ∀ (l l2 : List Agent.Task), Agent.setTaskStatus l taskID st = some l2 →
      l2.length = l.length ∧
      (∀ P : String → Prop, P st → (∀ t ∈ l, P t.status) → ∀ t ∈ l2, P t.status) := by
  intro l
  induction l with
  | nil => intro l2 h; simp [Agent.setTaskStatus] at h
  | cons t rest ih =>
    intro l2 h
    unfold Agent.setTaskStatus at h
    by_cases hid : t.id = taskID
    · rw [if_pos hid] at h
      obtain rfl := Option.some_inj.mp h.symm
      refine ⟨by simp, ?_⟩
      intro P hPst hPl x hx
      rcases List.mem_cons.mp hx with rfl | hx2
      · exact hPst
      · exact hPl x (List.mem_cons_of_mem _ hx2)
    · rw [if_neg hid] at h
      cases hrec : Agent.setTaskStatus rest taskID st with
      | none => rw [hrec] at h; simp at h
      | some rest2 =>
        rw [hrec] at h
        obtain rfl := Option.some_inj.mp h.symm
        obtain ⟨hlen, hP⟩ := ih rest2 hrec
        refine ⟨by simp [hlen], ?_⟩
        intro P hPst hPl x hx
        rcases List.mem_cons.mp hx with rfl | hx2
        · exact hPl x (List.mem_cons_self _ _)
        · exact hP P hPst (fun y hy => hPl y (List.mem_cons_of_mem _ hy)) x hx2

/-- Statuses produced by `parseLine` are completed or pending. -/
theorem parseLine_status (line : String) (dc : String × String)
    (h : Agent.parseLine line = some dc) :
    dc.2 = Agent.TaskStatusCompleted ∨ dc.2 = Agent.TaskStatusPending := by
  unfold Agent.parseLine at h
  split at h
  · simp at h
  · split at h
    · simp at h
    · split at h
      · simp at h
      · obtain rfl := Option.some_inj.mp h.symm
        unfold Agent.parsedStatus
        by_cases hc : (containsStr (trimSpace line) "☑" || containsStr (trimSpace line) "✓" ||
            containsStr (trimSpace line) "[x]") = true
        · left; simp only [hc, if_true]
        · right
          rw [Bool.not_eq_true] at hc
          simp only [hc]
          rfl

/-- Tasks accumulated by the parse fold all have statuses in range. -/
theorem parse_fold_status (lines : List String) :
    ∀ acc : List Agent.Task × Nat, (∀ t ∈ acc.1, statusInFour t.status) →
      ∀ t ∈ (lines.foldl Agent.parseStep acc).1, statusInFour t.status := by
  induction lines with
  | nil => intro acc hacc; simpa using hacc
  | cons line rest ih =>
    intro acc hacc
    rw [List.foldl_cons]
    apply ih
    unfold Agent.parseStep
    cases hpl : Agent.parseLine line with
    | none => simpa using hacc
    | some dc =>
      intro t ht
      simp only at ht
      rcases List.mem_append.mp ht with ht2 | ht2
      · exact hacc t ht2
      · rw [List.mem_singleton] at ht2
        subst ht2
        rcases parseLine_status line dc hpl with hs | hs
        · exact Or.inr (Or.inr (Or.inl hs))
        · exact Or.inl hs

/-- C3: after a status change through `UpdateTaskStatus` (with a status
from the data model and a well-formed breakdown) and after
`ParseTasksFromLLM`, the denormalized counters satisfy
completed + in_progress + pending + blocked = total_tasks,
where blocked is the count of blocked tasks (the struct stores no blocked
counter). -/
theorem plan_counters_consistent :
    (∀ (tb : Agent.TaskBreakdown) (taskID : Int) (status : String),
      statusInFour status →
      (∀ t ∈ tb.tasks, statusInFour t.status) →
      tb.totalTasks = tb.tasks.length →
      (Agent.UpdateTaskStatus tb taskID status).2 = true →
      counterInvariant (Agent.UpdateTaskStatus tb taskID status).1) ∧
    (∀ resp tb, Agent.ParseTasksFromLLM resp = some tb → counterInvariant tb) := by
  constructor
  · intro tb taskID status hst hall hlen hfound
    unfold Agent.UpdateTaskStatus at hfound ⊢
    cases hset : Agent.setTaskStatus tb.tasks taskID status with
    | none => rw [hset] at hfound; simp at hfound
    | some ts =>
      obtain ⟨hl2, hP⟩ := setTaskStatus_some taskID status tb.tasks ts hset
      apply updateStats_invariant
      · exact hP statusInFour hst hall
      · simpa [hl2] using hlen
  · intro resp tb hparse
    unfold Agent.ParseTasksFromLLM at hparse
    by_cases hemp : ((splitLines resp).foldl Agent.parseStep ([], 1)).1 = []
    · rw [if_pos hemp] at hparse; simp at hparse
    · rw [if_neg hemp] at hparse
      obtain rfl := Option.some_inj.mp hparse.symm
      apply updateStats_invariant
      · exact parse_fold_status (splitLines resp) ([], 1) (by simp)
      · rfl

/-- C3 witness: marking task 1 of a one-task breakdown completed, and the
breakdown parsed from a one-line checklist, both satisfy the counter
invariant. -/
theorem plan_counters_consistent_witness :
    counterInvariant (Agent.UpdateTaskStatus
      { tasks := [{ id := 1, description := "t", status := "pending" }],
        totalTasks := 1 } 1 "completed").1 ∧
    counterInvariant ((Agent.ParseTasksFromLLM "☐ write the parser tests").getD
      { tasks := [], totalTasks := 0 }) :=
  ⟨plan_counters_consistent.1
      { tasks := [{ id := 1, description := "t", status := "pending" }], totalTasks := 1 }
      1 "completed" (Or.inr (Or.inr (Or.inl rfl)))
      (by intro t ht; rw [List.mem_singleton] at ht; subst ht; exact Or.inl rfl)
      rfl (by decide),
   plan_counters_consistent.2 "☐ write the parser tests" _ (by decide)⟩

/-! ## C9 — per-task iteration cap -/

/-- The loop appends at most one action per remaining iteration. -/
theorem executeTaskGo_length (oracle : List String → Except String Agent.Action)
    (exec : Agent.Action → Agent.ActionResult) (task : Agent.Task) :
    ∀ (n : Nat) (acts : List Agent.Action) (ress : List Agent.ActionResult)
      (hist : List String),
      (Agent.executeTaskGo oracle exec task n acts ress hist).actions.length ≤
        acts.length + n := by
  intro n
  induction n with
  | zero => intro acts ress hist; simp [Agent.executeTaskGo]
  | succ n ih =>
    intro acts ress hist
    unfold Agent.executeTaskGo
    cases ho : oracle hist with
    | error msg => simp
    | ok a =>
      dsimp only
      by_cases ht : a.type = Agent.ActionComplete ∨ a.type = Agent.ActionFail
      · rw [if_pos ht]
        simp only [List.length_append, List.length_singleton]
        omega
      · rw [if_neg ht]
        by_cases hs : ¬ (exec a).success = true
        · rw [if_pos hs]
          simp only [List.length_append, List.length_singleton]
          omega
        · rw [if_neg hs]
          have := ih (acts ++ [a]) (ress ++ [exec a]) (hist ++ [Agent.summarizeStep a (exec a)])
          simp only [List.length_append, List.length_singleton] at this
          omega

/-- Under a never-terminating oracle the loop exhausts its fuel and
reports the exhaustion record. -/
theorem executeTaskGo_exhaust (oracle : List String → Except String Agent.Action)
    (exec : Agent.Action → Agent.ActionResult) (task : Agent.Task)
    (hok : nonterminalOk oracle exec) :
    ∀ (n : Nat) (acts : List Agent.Action) (ress : List Agent.ActionResult)
      (hist : List String),
      (Agent.executeTaskGo oracle exec task n acts ress hist).completed = false ∧
      (Agent.executeTaskGo oracle exec task n acts ress hist).failed = true ∧
      (Agent.executeTaskGo oracle exec task n acts ress hist).failureMsg =
        "max iterations reached before completion" := by
  intro n
  induction n with
  | zero => intro acts ress hist; exact ⟨rfl, rfl, rfl⟩
  | succ n ih =>
    intro acts ress hist
    obtain ⟨a, hoa, hnc, hnf, hsucc⟩ := hok hist
    unfold Agent.executeTaskGo
    rw [hoa]
    dsimp only
    rw [if_neg (by rintro (h | h); exact hnc h; exact hnf h)]
    rw [if_neg (by simp [hsucc])]
    exact ih (acts ++ [a]) (ress ++ [exec a]) (hist ++ [Agent.summarizeStep a (exec a)])

/-- C9: the per-task loop performs at most MaxIterations iterations
(default 25 for a non-positive value), so a task execution's action list
has length at most MaxIterations; exhausting the cap without a terminal
action marks the execution failed with
"max iterations reached before completion", which the runner maps to
status blocked. -/
theorem runner_iteration_cap :
    (∀ m : Int, m ≤ 0 → Agent.effectiveMaxIterations m = 25) ∧
    (∀ (oracle : List String → Except String Agent.Action)
       (exec : Agent.Action → Agent.ActionResult) (task : Agent.Task) (m : Int),
      (Agent.executeTask oracle exec task (Agent.effectiveMaxIterations m)).actions.length ≤
        Agent.effectiveMaxIterations m) ∧
    (∀ (oracle : List String → Except String Agent.Action)
       (exec : Agent.Action → Agent.ActionResult) (task : Agent.Task) (m : Int),
      nonterminalOk oracle exec →
      (Agent.executeTask oracle exec task (Agent.effectiveMaxIterations m)).failed = true ∧
      (Agent.executeTask oracle exec task (Agent.effectiveMaxIterations m)).failureMsg =
        "max iterations reached before completion" ∧
      Agent.runnerTaskStatus
          (Agent.executeTask oracle exec task (Agent.effectiveMaxIterations m)) =
        Agent.TaskStatusBlocked) := by
  refine ⟨?_, ?_, ?_⟩
  · intro m hm
    unfold Agent.effectiveMaxIterations
    rw [if_pos hm]
  · intro oracle exec task m
    simpa using executeTaskGo_length oracle exec task (Agent.effectiveMaxIterations m) [] [] []
  · intro oracle exec task m hok
    obtain ⟨hc, hf, hmsg⟩ :=
      executeTaskGo_exhaust oracle exec task hok (Agent.effectiveMaxIterations m) [] [] []
    refine ⟨hf, hmsg, ?_⟩
    unfold Agent.runnerTaskStatus Agent.executeTask
    rw [if_neg (by simp [hc]), if_pos (by simp [hf])]

/-- C9 witness: a constant `read_file` oracle with an always-succeeding
executor and a caller-passed MaxIterations of -1 runs 25 iterations and
ends blocked on "max iterations reached before completion". -/
theorem runner_iteration_cap_witness :
    Agent.effectiveMaxIterations (-1) = 25 ∧
    (Agent.executeTask (fun _ => Except.ok { type := Agent.ActionReadFile, path := "x" })
        (fun _ => { success := true }) { id := 1, description := "t", status := "pending" }
        (Agent.effectiveMaxIterations (-1))).failed = true ∧
    (Agent.executeTask (fun _ => Except.ok { type := Agent.ActionReadFile, path := "x" })
        (fun _ => { success := true }) { id := 1, description := "t", status := "pending" }
        (Agent.effectiveMaxIterations (-1))).failureMsg =
      "max iterations reached before completion" ∧
    Agent.runnerTaskStatus
        (Agent.executeTask (fun _ => Except.ok { type := Agent.ActionReadFile, path := "x" })
          (fun _ => { success := true }) { id := 1, description := "t", status := "pending" }
          (Agent.effectiveMaxIterations (-1))) =
      Agent.TaskStatusBlocked :=
  ⟨runner_iteration_cap.1 (-1) (by decide),
   runner_iteration_cap.2.2 (fun _ => Except.ok { type := Agent.ActionReadFile, path := "x" })
     (fun _ => { success := true }) { id := 1, description := "t", status := "pending" } (-1)
     (fun _ => ⟨{ type := Agent.ActionReadFile, path := "x" }, rfl, by decide, by decide, rfl⟩)⟩

/-! ## C5 — merger token budget -/

/-- Greedy truncation invariant: starting from a running total that equals
the accepted files' token sum and respects the budget, the loop maintains
both. -/
theorem truncateLoop_invariant (budget : Int) :
    ∀ (files acc : List FileResult) (total : Int),
      total = (acc.map codeFileTokens).sum → total ≤ budget →
      (truncateLoop budget total acc files).2 =
          ((truncateLoop budget total acc files).1.map codeFileTokens).sum ∧
        (truncateLoop budget total acc files).2 ≤ budget := by
  intro files
  induction files with
  | nil => intro acc total hsum hle; exact ⟨hsum, hle⟩
  | cons f rest ih =>
    intro acc total hsum hle
    unfold truncateLoop
    by_cases hover : total + codeFileTokens f > budget
    · rw [if_pos hover]
      exact ⟨hsum, hle⟩
    · rw [if_neg hover]
      apply ih (acc ++ [f]) (total + codeFileTokens f)
      · rw [List.map_append, List.sum_append]
        simp [hsum]
      · omega

/-- C5 (amended): for every nonnegative token budget, the sum of the
returned files' token counts — the sum of each file's chunks' token
estimates, defaulting to 500 whenever that sum is zero (in particular when
the file has no chunks) — is at most the budget, and `TotalTokens` equals
that sum. -/
theorem merge_token_budget (budget : Int) (hb : 0 ≤ budget)
    (ragResults : List SearchResult) (indexerFiles : List String) :
    ((Merge budget ragResults indexerFiles).files.map codeFileTokens).sum ≤ budget ∧
    (Merge budget ragResults indexerFiles).totalTokens =
      ((Merge budget ragResults indexerFiles).files.map codeFileTokens).sum := by
  unfold Merge truncateToTokenBudget
  obtain ⟨h1, h2⟩ := truncateLoop_invariant budget
    (sortByRelevance (indexerFiles.foldl idxStep
      ((ragResults.foldl ragStep ([], 0)).1, 0)).1) [] 0 (by simp) hb
  exact ⟨by rw [← h1]; exact h2, h1⟩

/-- C5 witness: a single RAG result whose chunk has token count 0 under
budget 1000. -/
theorem merge_token_budget_witness :
    ((Merge 1000
        [{ chunk := { id := "c", filePath := "a.go", startLine := 1, endLine := 1,
                      chunkType := "block", symbolName := "", language := "go",
                      content := "ab", tokenCount := 0, hash := "" },
           score := (1 / 2 : Rat), source := "rag" }] []).files.map codeFileTokens).sum ≤
      1000 ∧
    (Merge 1000
        [{ chunk := { id := "c", filePath := "a.go", startLine := 1, endLine := 1,
                      chunkType := "block", symbolName := "", language := "go",
                      content := "ab", tokenCount := 0, hash := "" },
           score := (1 / 2 : Rat), source := "rag" }] []).totalTokens =
      ((Merge 1000
        [{ chunk := { id := "c", filePath := "a.go", startLine := 1, endLine := 1,
                      chunkType := "block", symbolName := "", language := "go",
                      content := "ab", tokenCount := 0, hash := "" },
           score := (1 / 2 : Rat), source := "rag" }] []).files.map codeFileTokens).sum :=
  merge_token_budget 1000 (by decide)
    [{ chunk := { id := "c", filePath := "a.go", startLine := 1, endLine := 1,
                  chunkType := "block", symbolName := "", language := "go",
                  content := "ab", tokenCount := 0, hash := "" },
       score := (1 / 2 : Rat), source := "rag" }] []

/-- C5 counterexample: the claim defines a file's token count as the sum
of its chunks' token estimates "or the default 500 when it has no chunks",
and asserts `TotalTokens` equals that sum.  A file whose single chunk has
token estimate 0 (content shorter than 4 bytes, as `estimateTokens` floors
to 0) is charged the 500 default by the code, so `TotalTokens` is 500
while the claim's sum is 0. -/
theorem merge_token_budget_counterexample :
    (Merge 1000
        [{ chunk := { id := "c", filePath := "a.go", startLine := 1, endLine := 1,
                      chunkType := "block", symbolName := "", language := "go",
                      content := "ab", tokenCount := 0, hash := "" },
           score := (1 / 2 : Rat), source := "rag" }] []).totalTokens = 500 ∧
    ((Merge 1000
        [{ chunk := { id := "c", filePath := "a.go", startLine := 1, endLine := 1,
                      chunkType := "block", symbolName := "", language := "go",
                      content := "ab", tokenCount := 0, hash := "" },
           score := (1 / 2 : Rat), source := "rag" }] []).files.map specFileTokens).sum = 0 ∧
    (500 : Int) ≠ 0 := by
  refine ⟨?_, ?_, by decide⟩ <;> decide

/-! ## C4 — merger relevance on files found by both sources -/

/-- `ragStep` keeps relevances nonnegative when the score is. -/
theorem ragStep_nonneg (acc : List FileResult × Nat) (r : SearchResult)
    (hacc : ∀ f ∈ acc.1, 0 ≤ f.relevance) (hs : 0 ≤ r.score) :
    ∀ f ∈ (ragStep acc r).1, 0 ≤ f.relevance := by
  unfold ragStep
  by_cases hany : acc.1.any (fun f => f.path = r.chunk.filePath)
  · rw [if_pos hany]
    intro f hf
    obtain ⟨f0, hf0, rfl⟩ := List.mem_map.mp hf
    by_cases hp : f0.path = r.chunk.filePath
    · rw [if_pos hp]
      have h0 : 0 ≤ maxQ f0.relevance r.score := by
        unfold maxQ
        split <;> [exact hacc f0 hf0; exact hs]
      simp only
      positivity
    · rw [if_neg hp]; exact hacc f0 hf0
  · rw [if_neg hany]
    intro f hf
    rcases List.mem_append.mp hf with h | h
    · exact hacc f h
    · rw [List.mem_singleton] at h; subst h; exact hs

/-- `idxStep` keeps relevances nonnegative. -/
theorem idxStep_nonneg (acc : List FileResult × Nat) (p : String)
    (hacc : ∀ f ∈ acc.1, 0 ≤ f.relevance) :
    ∀ f ∈ (idxStep acc p).1, 0 ≤ f.relevance := by
  unfold idxStep
  by_cases hany : acc.1.any (fun f => f.path = p)
  · rw [if_pos hany]
    intro f hf
    obtain ⟨f0, hf0, rfl⟩ := List.mem_map.mp hf
    by_cases hp : f0.path = p
    · rw [if_pos hp]
      have := hacc f0 hf0
      simp only
      positivity
    · rw [if_neg hp]; exact hacc f0 hf0
  · rw [if_neg hany]
    intro f hf
    rcases List.mem_append.mp hf with h | h
    · exact hacc f h
    · rw [List.mem_singleton] at h; subst h; norm_num

/-- Both steps preserve presence of a path. -/
theorem ragStep_presence (acc : List FileResult × Nat) (r : SearchResult) (p : String)
    (h : ∃ f ∈ acc.1, f.path = p) : ∃ f ∈ (ragStep acc r).1, f.path = p := by
  obtain ⟨f0, hf0, hp0⟩ := h
  unfold ragStep
  by_cases hany : acc.1.any (fun f => f.path = r.chunk.filePath)
  · rw [if_pos hany]
    refine ⟨_, List.mem_map_of_mem _ hf0, ?_⟩
    by_cases hp : f0.path = r.chunk.filePath
    · rw [if_pos hp]; exact hp0
    · rw [if_neg hp]; exact hp0
  · rw [if_neg hany]
    exact ⟨f0, List.mem_append_left _ hf0, hp0⟩

/-- `idxStep` preserves presence of a path. -/
theorem idxStep_presence (acc : List FileResult × Nat) (q : String) (p : String)
    (h : ∃ f ∈ acc.1, f.path = p) : ∃ f ∈ (idxStep acc q).1, f.path = p := by
  obtain ⟨f0, hf0, hp0⟩ := h
  unfold idxStep
  by_cases hany : acc.1.any (fun f => f.path = q)
  · rw [if_pos hany]
    refine ⟨_, List.mem_map_of_mem _ hf0, ?_⟩
    by_cases hp : f0.path = q
    · rw [if_pos hp]; exact hp0
    · rw [if_neg hp]; exact hp0
  · rw [if_neg hany]
    exact ⟨f0, List.mem_append_left _ hf0, hp0⟩

/-- `ragStep` never lowers the relevance bound of an already-present path
(given nonnegative relevances and score). -/
theorem ragStep_bound (acc : List FileResult × Nat) (r : SearchResult) (p : String) (v : Rat)
    (hacc : ∀ f ∈ acc.1, 0 ≤ f.relevance)
    (hpres : ∃ f ∈ acc.1, f.path = p)
    (hG : ∀ f ∈ acc.1, f.path = p → v ≤ f.relevance) :
    ∀ f ∈ (ragStep acc r).1, f.path = p → v ≤ f.relevance := by
  unfold ragStep
  by_cases hany : acc.1.any (fun f => f.path = r.chunk.filePath)
  · rw [if_pos hany]
    intro f hf
    obtain ⟨f0, hf0, rfl⟩ := List.mem_map.mp hf
    by_cases hp : f0.path = r.chunk.filePath
    · rw [if_pos hp]
      intro hfp
      simp only at hfp ⊢
      have hv : v ≤ f0.relevance := hG f0 hf0 hfp
      have h0 : 0 ≤ f0.relevance := hacc f0 hf0
      have hm : f0.relevance ≤ maxQ f0.relevance r.score := by
        unfold maxQ; split <;> linarith
      have hmn : (0 : Rat) ≤ maxQ f0.relevance r.score := le_trans h0 hm
      nlinarith
    · rw [if_neg hp]
      exact hG f0 hf0
  · rw [if_neg hany]
    intro f hf
    rcases List.mem_append.mp hf with h | h
    · exact hG f h
    · rw [List.mem_singleton] at h
      subst h
      intro hfp
      obtain ⟨f0, hf0, hp0⟩ := hpres
      have h0 : acc.1.any (fun f => f.path = r.chunk.filePath) = false :=
        Bool.eq_false_iff.mpr hany
      have h1 := List.any_eq_false.mp h0 f0 hf0
      simp only [decide_eq_true_eq] at h1
      exact absurd (hp0.trans hfp.symm) h1

/-- `idxStep` never lowers the relevance bound of an already-present path
(given nonnegative relevances). -/
theorem idxStep_bound (acc : List FileResult × Nat) (q : String) (p : String) (v : Rat)
    (hacc : ∀ f ∈ acc.1, 0 ≤ f.relevance)
    (hpres : ∃ f ∈ acc.1, f.path = p)
    (hG : ∀ f ∈ acc.1, f.path = p → v ≤ f.relevance) :
    ∀ f ∈ (idxStep acc q).1, f.path = p → v ≤ f.relevance := by
  unfold idxStep
  by_cases hany : acc.1.any (fun f => f.path = q)
  · rw [if_pos hany]
    intro f hf
    obtain ⟨f0, hf0, rfl⟩ := List.mem_map.mp hf
    by_cases hp : f0.path = q
    · rw [if_pos hp]
      intro hfp
      simp only at hfp ⊢
      have hv : v ≤ f0.relevance := hG f0 hf0 hfp
      have h0 : 0 ≤ f0.relevance := hacc f0 hf0
      nlinarith
    · rw [if_neg hp]
      exact hG f0 hf0
  · rw [if_neg hany]
    intro f hf
    rcases List.mem_append.mp hf with h | h
    · exact hG f h
    · rw [List.mem_singleton] at h
      subst h
      intro hfp
      obtain ⟨f0, hf0, hp0⟩ := hpres
      have h0 : acc.1.any (fun f => f.path = q) = false := Bool.eq_false_iff.mpr hany
      have h1 := List.any_eq_false.mp h0 f0 hf0
      simp only [decide_eq_true_eq] at h1
      exact absurd (hp0.trans hfp.symm) h1

/-- Processing a present path in the indexer pass marks every entry of
that path `both`. -/
theorem idxStep_both_est (acc : List FileResult × Nat) (p : String)
    (hpres : ∃ f ∈ acc.1, f.path = p) :
    ∀ f ∈ (idxStep acc p).1, f.path = p → f.source = "both" := by
  unfold idxStep
  obtain ⟨f0, hf0, hp0⟩ := hpres
  have hany : acc.1.any (fun f => f.path = p) = true :=
    List.any_eq_true.mpr ⟨f0, hf0, by simpa using hp0⟩
  rw [if_pos hany]
  intro f hf
  obtain ⟨f1, hf1, rfl⟩ := List.mem_map.mp hf
  by_cases hp : f1.path = p
  · rw [if_pos hp]
    intro _
    rfl
  · rw [if_neg hp]
    intro hfp
    exact absurd hfp hp

/-- `idxStep` preserves the `both` mark of a present path. -/
theorem idxStep_both_pres (acc : List FileResult × Nat) (q : String) (p : String)
    (hpres : ∃ f ∈ acc.1, f.path = p)
    (hB : ∀ f ∈ acc.1, f.path = p → f.source = "both") :
    ∀ f ∈ (idxStep acc q).1, f.path = p → f.source = "both" := by
  unfold idxStep
  by_cases hany : acc.1.any (fun f => f.path = q)
  · rw [if_pos hany]
    intro f hf
    obtain ⟨f1, hf1, rfl⟩ := List.mem_map.mp hf
    by_cases hp : f1.path = q
    · rw [if_pos hp]
      intro _
      rfl
    · rw [if_neg hp]
      exact hB f1 hf1
  · rw [if_neg hany]
    intro f hf
    rcases List.mem_append.mp hf with h | h
    · exact hB f h
    · rw [List.mem_singleton] at h
      subst h
      intro hfp
      obtain ⟨f0, hf0, hp0⟩ := hpres
      have h0 : acc.1.any (fun f => f.path = q) = false := Bool.eq_false_iff.mpr hany
      have h1 := List.any_eq_false.mp h0 f0 hf0
      simp only [decide_eq_true_eq] at h1
      exact absurd (hp0.trans hfp.symm) h1

/-- Stability of nonnegativity, presence and the relevance bound under the
remaining RAG pass. -/
theorem ragFold_stable (p : String) (v : Rat) :
    ∀ (rs : List SearchResult) (acc : List FileResult × Nat),
      (∀ r ∈ rs, 0 ≤ r.score) →
      (∀ f ∈ acc.1, 0 ≤ f.relevance) →
      (∃ f ∈ acc.1, f.path = p) →
      (∀ f ∈ acc.1, f.path = p → v ≤ f.relevance) →
      (∀ f ∈ (rs.foldl ragStep acc).1, 0 ≤ f.relevance) ∧
      (∃ f ∈ (rs.foldl ragStep acc).1, f.path = p) ∧
      (∀ f ∈ (rs.foldl ragStep acc).1, f.path = p → v ≤ f.relevance) := by
  intro rs
  induction rs with
  | nil => intro acc _ h1 h2 h3; exact ⟨h1, h2, h3⟩
  | cons r rest ih =>
    intro acc hs h1 h2 h3
    rw [List.foldl_cons]
    exact ih (ragStep acc r) (fun x hx => hs x (List.mem_cons_of_mem _ hx))
      (ragStep_nonneg acc r h1 (hs r (List.mem_cons_self _ _)))
      (ragStep_presence acc r p h2)
      (ragStep_bound acc r p v h1 h2 h3)

/-- Stability of nonnegativity, presence, the relevance bound and the
`both` mark under the remaining indexer pass. -/
theorem idxFold_stable (p : String) (v : Rat) :
    ∀ (qs : List String) (acc : List FileResult × Nat),
      (∀ f ∈ acc.1, 0 ≤ f.relevance) →
      (∃ f ∈ acc.1, f.path = p) →
      (∀ f ∈ acc.1, f.path = p → v ≤ f.relevance) →
      (∀ f ∈ acc.1, f.path = p → f.source = "both") →
      (∀ f ∈ (qs.foldl idxStep acc).1, 0 ≤ f.relevance) ∧
      (∃ f ∈ (qs.foldl idxStep acc).1, f.path = p) ∧
      (∀ f ∈ (qs.foldl idxStep acc).1, f.path = p → v ≤ f.relevance) ∧
      (∀ f ∈ (qs.foldl idxStep acc).1, f.path = p → f.source = "both") := by
  intro qs
  induction qs with
  | nil => intro acc h1 h2 h3 h4; exact ⟨h1, h2, h3, h4⟩
  | cons q rest ih =>
    intro acc h1 h2 h3 h4
    rw [List.foldl_cons]
    exact ih (idxStep acc q)
      (idxStep_nonneg acc q h1)
      (idxStep_presence acc q p h2)
      (idxStep_bound acc q p v h1 h2 h3)
      (idxStep_both_pres acc q p h2 h4)

/-- After the RAG pass, each processed result's path is present, bounded
below by its score, and all relevances are nonnegative. -/
theorem ragFold_establish (r : SearchResult) :
    ∀ (rs1 rs2 : List SearchResult) (acc : List FileResult × Nat),
      (∀ x ∈ rs1 ++ r :: rs2, 0 ≤ x.score) →
      (∀ f ∈ acc.1, 0 ≤ f.relevance) →
      (∀ f ∈ ((rs1 ++ r :: rs2).foldl ragStep acc).1, 0 ≤ f.relevance) ∧
      (∃ f ∈ ((rs1 ++ r :: rs2).foldl ragStep acc).1, f.path = r.chunk.filePath) ∧
      (∀ f ∈ ((rs1 ++ r :: rs2).foldl ragStep acc).1,
        f.path = r.chunk.filePath → r.score ≤ f.relevance) := by
  intro rs1
  induction rs1 with
  | nil =>
    intro rs2 acc hs h1
    rw [List.nil_append, List.foldl_cons]
    have hsr : 0 ≤ r.score := hs r (List.mem_cons_self _ _)
    have hnn := ragStep_nonneg acc r h1 hsr
    have hpres : ∃ f ∈ (ragStep acc r).1, f.path = r.chunk.filePath := by
      unfold ragStep
      by_cases hany : acc.1.any (fun f => f.path = r.chunk.filePath)
      · rw [if_pos hany]
        rw [List.any_eq_true] at hany
        obtain ⟨f0, hf0, hp0⟩ := hany
        simp only [decide_eq_true_eq] at hp0
        refine ⟨_, List.mem_map_of_mem _ hf0, ?_⟩
        rw [if_pos hp0]
        exact hp0
      · rw [if_neg hany]
        exact ⟨_, List.mem_append_right _ (List.mem_singleton_self _), rfl⟩
    have hG : ∀ f ∈ (ragStep acc r).1, f.path = r.chunk.filePath → r.score ≤ f.relevance := by
      unfold ragStep
      by_cases hany : acc.1.any (fun f => f.path = r.chunk.filePath)
      · rw [if_pos hany]
        intro f hf
        obtain ⟨f0, hf0, rfl⟩ := List.mem_map.mp hf
        by_cases hp : f0.path = r.chunk.filePath
        · rw [if_pos hp]
          intro _
          simp only
          have h0 : 0 ≤ f0.relevance := h1 f0 hf0
          have hm : r.score ≤ maxQ f0.relevance r.score := by
            unfold maxQ; split <;> linarith
          nlinarith
        · rw [if_neg hp]
          intro hfp
          exact absurd hfp hp
      · rw [if_neg hany]
        intro f hf
        rcases List.mem_append.mp hf with h | h
        · intro hfp
          have h0 : acc.1.any (fun g => g.path = r.chunk.filePath) = false :=
            Bool.eq_false_iff.mpr hany
          have h2 := List.any_eq_false.mp h0 f h
          simp only [decide_eq_true_eq] at h2
          exact absurd hfp h2
        · rw [List.mem_singleton] at h
          subst h
          intro _
          exact le_refl _
    exact ragFold_stable r.chunk.filePath r.score rs2 (ragStep acc r)
      (fun x hx => hs x (List.mem_cons_of_mem _ hx)) hnn hpres hG
  | cons r1 rest1 ih =>
    intro rs2 acc hs h1
    rw [List.cons_append, List.foldl_cons]
    exact ih rs2 (ragStep acc r1)
      (fun x hx => hs x (List.mem_cons_of_mem _ hx))
      (ragStep_nonneg acc r1 h1 (hs r1 (List.mem_cons_self _ _)))

/-- Reaching the occurrence of a present path in the indexer pass
establishes the `both` mark and keeps the relevance bound. -/
theorem idxFold_establish (p : String) (v : Rat) :
    ∀ (qs1 qs2 : List String) (acc : List FileResult × Nat),
      (∀ f ∈ acc.1, 0 ≤ f.relevance) →
      (∃ f ∈ acc.1, f.path = p) →
      (∀ f ∈ acc.1, f.path = p → v ≤ f.relevance) →
      (∀ f ∈ ((qs1 ++ p :: qs2).foldl idxStep acc).1, 0 ≤ f.relevance) ∧
      (∃ f ∈ ((qs1 ++ p :: qs2).foldl idxStep acc).1, f.path = p) ∧
      (∀ f ∈ ((qs1 ++ p :: qs2).foldl idxStep acc).1, f.path = p → v ≤ f.relevance) ∧
      (∀ f ∈ ((qs1 ++ p :: qs2).foldl idxStep acc).1, f.path = p → f.source = "both") := by
  intro qs1
  induction qs1 with
  | nil =>
    intro qs2 acc h1 h2 h3
    rw [List.nil_append, List.foldl_cons]
    exact idxFold_stable p v qs2 (idxStep acc p)
      (idxStep_nonneg acc p h1)
      (idxStep_presence acc p p h2)
      (idxStep_bound acc p p v h1 h2 h3)
      (idxStep_both_est acc p h2)
  | cons q rest ih =>
    intro qs2 acc h1 h2 h3
    rw [List.cons_append, List.foldl_cons]
    exact ih qs2 (idxStep acc q)
      (idxStep_nonneg acc q h1)
      (idxStep_presence acc q p h2)
      (idxStep_bound acc q p v h1 h2 h3)

/-- Membership is preserved by the insertion step of the sort. -/
theorem mem_insertByRelevance (x y : FileResult) :
    ∀ l : List FileResult, y ∈ insertByRelevance x l ↔ y = x ∨ y ∈ l := by
  intro l
  induction l with
  | nil => simp [insertByRelevance]
  | cons z rest ih =>
    unfold insertByRelevance
    by_cases hz : z.relevance ≤ x.relevance
    · rw [if_pos hz]
      simp [List.mem_cons]
    · rw [if_neg hz]
      simp only [List.mem_cons, ih]
      tauto

/-- The sort is a permutation at the level of membership. -/
theorem mem_sortByRelevance (y : FileResult) :
    ∀ files : List FileResult, y ∈ sortByRelevance files ↔ y ∈ files := by
  intro files
  induction files with
  | nil => simp [sortByRelevance]
  | cons f rest ih =>
    unfold sortByRelevance at ih ⊢
    rw [List.foldr_cons, mem_insertByRelevance, ih, List.mem_cons]

/-- Truncation returns only elements of its inputs. -/
theorem truncateLoop_mem (budget : Int) :
    ∀ (files acc : List FileResult) (total : Int) (x : FileResult),
      x ∈ (truncateLoop budget total acc files).1 → x ∈ acc ∨ x ∈ files := by
  intro files
  induction files with
  | nil => intro acc total x hx; exact Or.inl hx
  | cons f rest ih =>
    intro acc total x hx
    unfold truncateLoop at hx
    by_cases hover : total + codeFileTokens f > budget
    · rw [if_pos hover] at hx
      exact Or.inl hx
    · rw [if_neg hover] at hx
      rcases ih (acc ++ [f]) (total + codeFileTokens f) x hx with h | h
      · rcases List.mem_append.mp h with h2 | h2
        · exact Or.inl h2
        · rw [List.mem_singleton] at h2
          exact Or.inr (h2 ▸ List.mem_cons_self _ _)
      · exact Or.inr (List.mem_cons_of_mem _ h)

/-- C4 (amended): every file of `Merge`'s output that appears in the
structural path list and has a matching RAG result carries source `both`,
and — when all RAG scores are nonnegative — its relevance is at least
every RAG score for that path.  (The original claim's bound against the
0.9 indexer prior fails: see the counterexample.) -/
theorem merge_both_source_relevance (budget : Int) (ragResults : List SearchResult)
    (indexerFiles : List String) (hnn : ∀ r ∈ ragResults, 0 ≤ r.score)
    (f : FileResult) (hf : f ∈ (Merge budget ragResults indexerFiles).files)
    (hidx : f.path ∈ indexerFiles)
    (r : SearchResult) (hr : r ∈ ragResults) (hpath : r.chunk.filePath = f.path) :
    f.source = "both" ∧ r.score ≤ f.relevance := by
  have hf2 : f ∈ (indexerFiles.foldl idxStep
      (((ragResults.foldl ragStep ([], 0)).1, 0) : List FileResult × Nat)).1 := by
    unfold Merge truncateToTokenBudget at hf
    rcases truncateLoop_mem budget _ [] 0 f hf with h | h
    · simp at h
    · exact (mem_sortByRelevance f _).mp h
  obtain ⟨s, t, rfl⟩ := List.append_of_mem hr
  obtain ⟨hN1, hP1, hG1⟩ := ragFold_establish r s t ([], 0) hnn (by simp)
  rw [hpath] at hP1 hG1
  obtain ⟨u, w, hsplit⟩ := List.append_of_mem hidx
  rw [hsplit] at hf2
  obtain ⟨hN2, hP2, hG2, hB2⟩ := idxFold_establish f.path r.score u w
    (((s ++ r :: t).foldl ragStep ([], 0)).1, 0) hN1 hP1 hG1
  exact ⟨hB2 f hf2 rfl, hG2 f hf2 rfl⟩

/-- C4 counterexample: with one RAG result for `a.go` of score 0.5 and the
structural list `[a.go]`, the merged file has source `both` but relevance
0.5 × 1.3 = 0.65, strictly below the 0.9 single-source indexer prior — so
a both-source file does not receive at least the maximum that a
single-source entry for the same path would receive. -/
theorem merge_both_source_counterexample :
    ((Merge 100000
        [{ chunk := { id := "c", filePath := "a.go", startLine := 1, endLine := 3,
                      chunkType := "function", symbolName := "f", language := "go",
                      content := "func f() ...", tokenCount := 100, hash := "" },
           score := (1 / 2 : Rat), source := "rag" }] ["a.go"]).files.map
        (fun f => (f.path, f.relevance, f.source))) =
      [("a.go", (13 / 20 : Rat), "both")] ∧
    (13 / 20 : Rat) < 9 / 10 := by
  constructor
  · rw [show (Merge 100000
        [{ chunk := { id := "c", filePath := "a.go", startLine := 1, endLine := 3,
                      chunkType := "function", symbolName := "f", language := "go",
                      content := "func f() ...", tokenCount := 100, hash := "" },
           score := (1 / 2 : Rat), source := "rag" }] ["a.go"]).files =
      [⟨"a.go", "", (1 / 2 : Rat) * (13 / 10), "both", [⟨1, 3⟩],
        [{ id := "c", filePath := "a.go", startLine := 1, endLine := 3,
           chunkType := "function", symbolName := "f", language := "go",
           content := "func f() ...", tokenCount := 100, hash := "" }]⟩] from rfl]
    simp only [List.map_cons, List.map_nil]
    norm_num
  · norm_num

/-- C4 (amended) witness: the amended theorem applied to a concrete
configuration — one RAG result for `a.go` of score 1/2 together with the
structural list `[a.go]`; the merged entry is `both`-sourced with
relevance at least that score. -/
theorem merge_both_source_relevance_witness :
    (⟨"a.go", "", (⟨1, 2, by decide, by decide⟩ : Rat) * (13 / 10), "both", [⟨1, 3⟩],
        [{ id := "c", filePath := "a.go", startLine := 1, endLine := 3,
           chunkType := "function", symbolName := "f", language := "go",
           content := "func f() ...", tokenCount := 100, hash := "" }]⟩ : FileResult).source =
      "both" ∧
    (⟨1, 2, by decide, by decide⟩ : Rat) ≤
      (⟨"a.go", "", (⟨1, 2, by decide, by decide⟩ : Rat) * (13 / 10), "both", [⟨1, 3⟩],
        [{ id := "c", filePath := "a.go", startLine := 1, endLine := 3,
           chunkType := "function", symbolName := "f", language := "go",
           content := "func f() ...", tokenCount := 100, hash := "" }]⟩ : FileResult).relevance :=
  merge_both_source_relevance 100000
    [{ chunk := { id := "c", filePath := "a.go", startLine := 1, endLine := 3,
                  chunkType := "function", symbolName := "f", language := "go",
                  content := "func f() ...", tokenCount := 100, hash := "" },
       score := (⟨1, 2, by decide, by decide⟩ : Rat), source := "rag" }] ["a.go"]
    (fun x hx => by rw [List.mem_singleton] at hx; subst hx; decide)
    _
    (by rw [show (Merge 100000
          [{ chunk := { id := "c", filePath := "a.go", startLine := 1, endLine := 3,
                        chunkType := "function", symbolName := "f", language := "go",
                        content := "func f() ...", tokenCount := 100, hash := "" },
             score := (⟨1, 2, by decide, by decide⟩ : Rat), source := "rag" }] ["a.go"]).files =
        [⟨"a.go", "", (⟨1, 2, by decide, by decide⟩ : Rat) * (13 / 10), "both", [⟨1, 3⟩],
          [{ id := "c", filePath := "a.go", startLine := 1, endLine := 3,
             chunkType := "function", symbolName := "f", language := "go",
             content := "func f() ...", tokenCount := 100, hash := "" }]⟩] from rfl]
        exact List.mem_singleton_self _)
    (by decide)
    _
    (List.mem_singleton_self _)
    rfl

/-! ## C8 — oversize chunk splitting -/

/-- The window is at most `linesPerChunk` lines. -/
theorem windowEnd_span_le (lines : List String) (w : Nat) :
    windowEnd lines w - w ≤ linesPerChunk := by
  unfold windowEnd
  split <;> omega

/-- Field projections of `NewChunk`. -/
theorem newChunk_symbolName (fp content ct sy la : String) (s e : Nat) :
    (NewChunk fp content ct sy la s e).symbolName = sy := rfl

/-- A non-final part always carries the `_part` suffix. -/
theorem partSymbol_of_not_last (name : String) (p : Nat) :
    partSymbol name p false = name ++ "_part" ++ toString p := by
  unfold partSymbol
  rw [if_pos (by simp)]

/-- A final part beyond the first carries the `_part` suffix. -/
theorem partSymbol_of_gt_one (name : String) (p : Nat) (h : 1 < p) :
    partSymbol name p true = name ++ "_part" ++ toString p := by
  unfold partSymbol
  rw [if_pos (by simp [h])]

/-- Invariant of the window loop: every emitted chunk is a window starting
at `i` plus a multiple of 90 inside the line range, inherits the kind,
carries the window's line span and content, and is `_part`-numbered by its
position whenever it is not a first-and-final part; consecutive chunks'
start lines differ by a positive multiple of 90. -/
theorem splitLoop_invariant (fp ct name lang : String) (start : Nat) (lines : List String) :
    ∀ (fuel i p : Nat), 1 ≤ p →
      (∀ j (hj : j < (splitLoop fp ct name lang start lines fuel i p).length),
        ∃ w k, w = i + 90 * k ∧ w < lines.length ∧
          ((splitLoop fp ct name lang start lines fuel i p).get ⟨j, hj⟩).chunkType = ct ∧
          ((splitLoop fp ct name lang start lines fuel i p).get ⟨j, hj⟩).startLine = start + w ∧
          ((splitLoop fp ct name lang start lines fuel i p).get ⟨j, hj⟩).endLine =
            start + windowEnd lines w - 1 ∧
          ((splitLoop fp ct name lang start lines fuel i p).get ⟨j, hj⟩).content =
            windowContent lines w ∧
          ((j + 1 < (splitLoop fp ct name lang start lines fuel i p).length ∨ 1 < p + j) →
            ((splitLoop fp ct name lang start lines fuel i p).get ⟨j, hj⟩).symbolName =
              name ++ "_part" ++ toString (p + j))) ∧
      (∀ j (hj : j + 1 < (splitLoop fp ct name lang start lines fuel i p).length),
        ∃ d, 1 ≤ d ∧
          ((splitLoop fp ct name lang start lines fuel i p).get ⟨j + 1, hj⟩).startLine =
            ((splitLoop fp ct name lang start lines fuel i p).get
              ⟨j, Nat.lt_of_succ_lt hj⟩).startLine + 90 * d) := by
  intro fuel
  induction fuel with
  | zero =>
    intro i p _
    constructor
    · intro j hj
      simp [splitLoop] at hj
    · intro j hj
      simp [splitLoop] at hj
  | succ fuel ih =>
    intro i p hp
    by_cases hi : i < lines.length
    · by_cases hskip : goLen (trimSpace (windowContent lines i)) < 20
      · -- tiny window: skipped, same partNum
        have heq : splitLoop fp ct name lang start lines (fuel + 1) i p =
            splitLoop fp ct name lang start lines fuel (i + (linesPerChunk - overlapLines)) p := by
          simp only [splitLoop]
          rw [if_pos hi, if_pos hskip]
        rw [heq]
        obtain ⟨ha, hb⟩ := ih (i + (linesPerChunk - overlapLines)) p hp
        constructor
        · intro j hj
          obtain ⟨w, k, hwk, hwlt, rest⟩ := ha j hj
          refine ⟨w, k + 1, ?_, hwlt, rest⟩
          rw [hwk]
          have h90 : linesPerChunk - overlapLines = 90 := rfl
          omega
        · exact hb
      · by_cases hlast : lines.length ≤ windowEnd lines i
        · -- final window: a single chunk
          have heq : splitLoop fp ct name lang start lines (fuel + 1) i p =
              [NewChunk fp (windowContent lines i) ct (partSymbol name p true) lang
                (start + i) (start + windowEnd lines i - 1)] := by
            simp only [splitLoop]
            rw [if_pos hi, if_neg hskip, if_pos hlast]
          rw [heq]
          constructor
          · intro j hj
            have hj0 : j = 0 := by simpa using Nat.lt_one_iff.mp (by simpa using hj)
            subst hj0
            refine ⟨i, 0, by ring, hi, ?_, ?_, ?_, ?_, ?_⟩
            · simp [NewChunk]
            · simp [NewChunk]
            · simp [NewChunk]
            · simp [NewChunk]
            · intro hcase
              have hgt : 1 < p := by
                rcases hcase with h | h
                · simp at h
                · omega
              simp only [List.get, newChunk_symbolName, partSymbol_of_gt_one name p hgt,
                Nat.add_zero]
          · intro j hj
            simp at hj
        · -- middle window: a chunk followed by the rest of the loop
          have heq : splitLoop fp ct name lang start lines (fuel + 1) i p =
              NewChunk fp (windowContent lines i) ct (partSymbol name p false) lang
                  (start + i) (start + windowEnd lines i - 1) ::
                splitLoop fp ct name lang start lines fuel
                  (i + (linesPerChunk - overlapLines)) (p + 1) := by
            simp only [splitLoop]
            rw [if_pos hi, if_neg hskip, if_neg hlast]
          rw [heq]
          obtain ⟨ha, hb⟩ := ih (i + (linesPerChunk - overlapLines)) (p + 1) (by omega)
          constructor
          · intro j hj
            cases j with
            | zero =>
              refine ⟨i, 0, by ring, hi, ?_, ?_, ?_, ?_, ?_⟩
              · simp [NewChunk]
              · simp [NewChunk]
              · simp [NewChunk]
              · simp [NewChunk]
              · intro _
                simp only [List.get, newChunk_symbolName, partSymbol_of_not_last,
                  Nat.add_zero]
            | succ j =>
              have hj2 : j < (splitLoop fp ct name lang start lines fuel
                  (i + (linesPerChunk - overlapLines)) (p + 1)).length := by
                simpa using Nat.lt_of_succ_lt_succ (by simpa using hj)
              obtain ⟨w, k, hwk, hwlt, hkind, hstart, hend, hcont, hsym⟩ := ha j hj2
              refine ⟨w, k + 1, ?_, hwlt, ?_, ?_, ?_, ?_, ?_⟩
              · rw [hwk]
                have : linesPerChunk - overlapLines = 90 := rfl
                omega
              · simpa using hkind
              · simpa using hstart
              · simpa using hend
              · simpa using hcont
              · intro _
                have hsym2 := hsym (Or.inr (by omega))
                have harg : p + 1 + j = p + (j + 1) := by omega
                rw [harg] at hsym2
                simpa using hsym2
          · intro j hj
            cases j with
            | zero =>
              have hlen : 0 < (splitLoop fp ct name lang start lines fuel
                  (i + (linesPerChunk - overlapLines)) (p + 1)).length := by
                simpa using Nat.lt_of_succ_lt_succ (by simpa using hj)
              obtain ⟨w, k, hwk, _, _, hstart, _, _, _⟩ := ha 0 hlen
              refine ⟨k + 1, by omega, ?_⟩
              simp only [List.get]
              rw [hstart, hwk]
              have h90 : linesPerChunk - overlapLines = 90 := rfl
              simp [NewChunk]
              omega
            | succ j =>
              have hj2 : j + 1 < (splitLoop fp ct name lang start lines fuel
                  (i + (linesPerChunk - overlapLines)) (p + 1)).length := by
                simpa using Nat.lt_of_succ_lt_succ (by simpa using hj)
              obtain ⟨d, hd, hds⟩ := hb j hj2
              exact ⟨d, hd, by simpa using hds⟩
    · have heq : splitLoop fp ct name lang start lines (fuel + 1) i p = [] := by
        simp only [splitLoop]
        rw [if_neg hi]
      rw [heq]
      constructor
      · intro j hj
        simp at hj
      · intro j hj
        simp at hj

theorem get_congr_of_eq {α : Type} {l1 l2 : List α} (h : l1 = l2) (j : Nat)
    (hj : j < l1.length) : l1.get ⟨j, hj⟩ = l2.get ⟨j, h ▸ hj⟩ := by
  cases h; rfl

/-- C8 (amended): an oversize chunk (over 4,000 bytes) is split into
windows of at most 100 lines placed at multiples of 90 lines; each
sub-chunk inherits the parent kind and spans exactly its window;
consecutive sub-chunks' start lines differ by positive multiples of 90
(10-line overlap between adjacent full windows); and when at least two
sub-chunks are returned, the k-th carries `name_partk` in its symbol
field. -/
theorem split_large_chunk_windows (filePath content chunkType symbolName language : String)
    (start endL : Nat) (hbig : maxChunkSize < goLen content) :
    (∀ c ∈ splitLargeChunk filePath content chunkType symbolName language start endL,
       c.chunkType = chunkType ∧
       ∃ w k, w = 90 * k ∧ w < (splitLines content).length ∧
         c.startLine = start + w ∧
         c.endLine = start + windowEnd (splitLines content) w - 1 ∧
         c.content = windowContent (splitLines content) w ∧
         windowEnd (splitLines content) w - w ≤ linesPerChunk) ∧
    (∀ j (hj : j + 1 <
        (splitLargeChunk filePath content chunkType symbolName language start endL).length),
       ∃ d, 1 ≤ d ∧
         ((splitLargeChunk filePath content chunkType symbolName language start endL).get
            ⟨j + 1, hj⟩).startLine =
           ((splitLargeChunk filePath content chunkType symbolName language start endL).get
              ⟨j, Nat.lt_of_succ_lt hj⟩).startLine + 90 * d) ∧
    (2 ≤ (splitLargeChunk filePath content chunkType symbolName language start endL).length →
       ∀ j (hj : j <
          (splitLargeChunk filePath content chunkType symbolName language start endL).length),
         ((splitLargeChunk filePath content chunkType symbolName language start endL).get
            ⟨j, hj⟩).symbolName = symbolName ++ "_part" ++ toString (j + 1)) := by
  have heq : splitLargeChunk filePath content chunkType symbolName language start endL =
      splitLoop filePath chunkType symbolName language start (splitLines content)
        ((splitLines content).length + 1) 0 1 := by
    unfold splitLargeChunk
    rw [if_neg (by omega)]
  obtain ⟨hA, hB⟩ := splitLoop_invariant filePath chunkType symbolName language start
    (splitLines content) ((splitLines content).length + 1) 0 1 (le_refl 1)
  refine ⟨?_, ?_, ?_⟩
  · intro c hc
    rw [heq] at hc
    obtain ⟨⟨j, hj⟩, rfl⟩ := List.mem_iff_get.mp hc
    obtain ⟨w, k, hwk, hwlt, hkind, hstart, hend, hcont, _⟩ := hA j hj
    exact ⟨hkind, w, k, by omega, hwlt, hstart, hend, hcont,
      windowEnd_span_le (splitLines content) w⟩
  · intro j hj
    have hj' : j + 1 < (splitLoop filePath chunkType symbolName language start
        (splitLines content) ((splitLines content).length + 1) 0 1).length := heq ▸ hj
    obtain ⟨d, hd1, hd2⟩ := hB j hj'
    refine ⟨d, hd1, ?_⟩
    rw [get_congr_of_eq heq (j + 1) hj, get_congr_of_eq heq j (Nat.lt_of_succ_lt hj)]
    exact hd2
  · intro h2 j hj
    have hj' : j < (splitLoop filePath chunkType symbolName language start
        (splitLines content) ((splitLines content).length + 1) 0 1).length := heq ▸ hj
    rw [get_congr_of_eq heq j hj]
    obtain ⟨w, k, hwk, hwlt, _, _, _, _, hsym⟩ := hA j hj'
    have h2' : 2 ≤ (splitLoop filePath chunkType symbolName language start
        (splitLines content) ((splitLines content).length + 1) 0 1).length := heq ▸ h2
    have hcase : j + 1 < (splitLoop filePath chunkType symbolName language start
        (splitLines content) ((splitLines content).length + 1) 0 1).length ∨ 1 < 1 + j := by
      by_cases hlt : j + 1 < (splitLoop filePath chunkType symbolName language start
          (splitLines content) ((splitLines content).length + 1) 0 1).length
      · exact Or.inl hlt
      · right; omega
    have := hsym hcase
    rwa [Nat.add_comm 1 j] at this

set_option maxRecDepth 100000 in
/-- C8 counterexample: a 4,004-byte single-line chunk (1,001 four-byte
characters) is longer than 4,000 bytes, yet `splitLargeChunk` returns one
sub-chunk whose symbol field is the unmodified `sym`, not `sym_part1` —
refuting the claim that the sub-chunks of every oversize chunk carry
`name_part1`, `name_part2`, … -/
theorem split_large_chunk_counterexample :
    maxChunkSize < goLen (String.mk (List.replicate 1001 '🦀')) ∧
    (splitLargeChunk "f.go" (String.mk (List.replicate 1001 '🦀')) "function" "sym" "go" 1 1).map
        (fun c => c.symbolName) = ["sym"] ∧
    ("sym" : String) ≠ "sym_part1" := by
  refine ⟨by decide, by decide, by decide⟩

set_option maxRecDepth 100000 in
/-- C8 (amended) witness: a 120-line, over-4,000-byte chunk splits into at
least two parts and its second sub-chunk is named `sym_part2`. -/
theorem split_large_chunk_windows_witness :
    maxChunkSize < goLen (joinLines (List.replicate 120 (String.mk (List.replicate 9 '🦀')))) ∧
    2 ≤ (splitLargeChunk "f.go"
      (joinLines (List.replicate 120 (String.mk (List.replicate 9 '🦀'))))
      "function" "sym" "go" 1 120).length ∧
    ((splitLargeChunk "f.go"
      (joinLines (List.replicate 120 (String.mk (List.replicate 9 '🦀'))))
      "function" "sym" "go" 1 120).get ⟨1, by decide⟩).symbolName =
      "sym" ++ "_part" ++ toString (1 + 1) :=
  ⟨by decide, by decide,
   (split_large_chunk_windows "f.go"
      (joinLines (List.replicate 120 (String.mk (List.replicate 9 '🦀'))))
      "function" "sym" "go" 1 120 (by decide)).2.2 (by decide) 1 (by decide)⟩
